import Mathlib

/-!
Verification of the BlackRoad project-management engine
(`src/project_management.py`) against its specification.

Shallow embedding conventions:
* Opaque string identifiers (Python uuid strings, SQLite TEXT keys) are
  Lean `String`s.
* Calendar dates and timestamps are modelled as `Int` day numbers.  ISO
  date strings compare lexicographically exactly as the underlying dates
  compare, so SQLite TEXT comparisons on `due_date` columns become `Int`
  comparisons.
* Python dictionaries keyed by task id become Lean functions
  `String → _` with pointwise update (`upd`); the tasks read from the
  store have unique ids (SQLite PRIMARY KEY), which the theorems carry
  as `Nodup` hypotheses.
* The two `while` loops of `get_critical_path` (the Kahn queue loop and
  the predecessor trace-back) are embedded with an explicit fuel
  parameter set to the task count; fuel sufficiency is proved, so the
  embedding computes exactly what the Python loops compute.
* Fallible Python code (raising `ValueError` / `ZeroDivisionError`)
  returns `Except String _`.
-/

namespace PM

/-- Pointwise function update on string-keyed maps (Python dict assignment). -/
def upd {α : Type} (f : String → α) (a : String) (b : α) : String → α :=
  fun x => if x = a then b else f x

@[simp] theorem upd_same {α : Type} (f : String → α) (a : String) (b : α) :
    upd f a b a = b := by simp [upd]

theorem upd_ne {α : Type} (f : String → α) {a x : String} (b : α) (h : x ≠ a) :
    upd f a b x = f x := by simp [upd, h]

/-- The `tasks` table row together with its resolved dependency list,
mirroring the Python `Task` dataclass (`project_management.py`, lines 36-51).
`priority`: 1 = critical … 4 = low.  `status`:
todo | in_progress | review | done | blocked. -/
structure Task where
  id : String
  project_id : String
  title : String
  assignee : String
  priority : Int
  status : String := "todo"
  due_date : Option Int := none
  story_points : Int := 1
  dependencies : List String := []
  completed_at : Option Int := none
  created_at : Int := 0
  deriving DecidableEq, Repr

/-- The `projects` table row, mirroring the Python `Project` dataclass
(lines 19-33).  `status`: active | on_hold | completed | cancelled. -/
structure Project where
  id : String
  name : String
  owner : String
  deadline : Int
  status : String := "active"
  description : String := ""
  created_at : Int := 0
  deriving DecidableEq, Repr

/-! ## Critical-path engine (`get_critical_path`, lines 243-295)

The engine consumes a materialized list of tasks (the output of
`get_project_tasks`).  We embed it as a function on that list. -/

/-- The ids of the input tasks: the key set of the Python `by_id` dict. -/
def taskIds (tasks : List Task) : List String := tasks.map Task.id

/-- The dependencies of `t` that resolve inside the input set — the Python
guard `if dep in by_id` (line 260) filters exactly these. -/
def restrictedDeps (tasks : List Task) (t : Task) : List String :=
  t.dependencies.filter (fun d => decide (d ∈ taskIds tasks))

/-- `by_id` lookup (first task with the given id; ids are unique in the
real store). -/
def taskOf (tasks : List Task) (x : String) : Option Task :=
  tasks.find? (fun t => t.id == x)

/-- `by_id[x].story_points`; `0` outside the domain (never consulted there). -/
def wOf (tasks : List Task) (x : String) : Int :=
  ((taskOf tasks x).map Task.story_points).getD 0

/-- `in_deg` after the build loop of lines 256-262: one unit per restricted
dependency, accumulated onto the key `task.id`.  With unique ids (task
PRIMARY KEY) and deduplicated dependency rows (dependencies PRIMARY KEY)
this equals the restricted-dependency count of the task owning the key. -/
def initInDeg (tasks : List Task) (x : String) : Int :=
  match taskOf tasks x with
  | some t => ((restrictedDeps tasks t).length : Int)
  | none => 0

/-- The forward adjacency map `children` of lines 257-262: `task.id` is
appended to `children[dep]` while iterating `tasks` in order, so
`children d` lists, in input order, the ids of the tasks having `d` among
their restricted dependencies (once each, since stored dependency rows
are deduplicated by the table primary key). -/
def children (tasks : List Task) (d : String) : List String :=
  (tasks.filter (fun t => decide (d ∈ restrictedDeps tasks t))).map Task.id

/-- The mutable state of the Kahn loop (lines 264-281). -/
structure KahnState where
  inDeg : String → Int
  earliest : String → Int
  pred : String → Option String
  queue : List String
  topo : List String

/-- The body of the inner `for child_id in children[tid]` loop
(lines 275-281): longest-path relaxation, in-degree decrement, enqueue on
reaching zero. -/
def relaxChild (finish : Int) (tid : String) (s : KahnState) (c : String) : KahnState :=
  let s1 :=
    if s.earliest c < finish then
      { s with earliest := upd s.earliest c finish, pred := upd s.pred c (some tid) }
    else s
  let d := s1.inDeg c - 1
  let s2 := { s1 with inDeg := upd s1.inDeg c d }
  if d = 0 then { s2 with queue := s2.queue ++ [c] } else s2

/-- One iteration of the `while queue` loop (lines 270-281): pop the head,
emit it to the topological order, relax all children with
`finish = earliest[tid] + story_points`. -/
def popStep (chil : String → List String) (w : String → Int)
    (s : KahnState) (tid : String) (rest : List String) : KahnState :=
  let finish := s.earliest tid + w tid
  let s1 := { s with queue := rest, topo := s.topo ++ [tid] }
  (chil tid).foldl (relaxChild finish tid) s1

/-- The `while queue` loop with explicit fuel.  Fuel `tasks.length`
suffices (proved below): every id enters the queue at most once. -/
def kahnRun (chil : String → List String) (w : String → Int) :
    Nat → KahnState → KahnState
  | 0, s => s
  | fuel + 1, s =>
    match s.queue with
    | [] => s
    | tid :: rest => kahnRun chil w fuel (popStep chil w s tid rest)

/-- The loop state before the first iteration (lines 265-268): zero
earliest starts, no predecessors, the ready queue seeded with the
zero-in-degree ids in input order. -/
def initState (tasks : List Task) : KahnState :=
  { inDeg := initInDeg tasks
    earliest := fun _ => 0
    pred := fun _ => none
    queue := (tasks.filter (fun t => decide (initInDeg tasks t.id = 0))).map Task.id
    topo := [] }

/-- The state after the Kahn loop has run to completion. -/
def kahnFinal (tasks : List Task) : KahnState :=
  kahnRun (children tasks) (wOf tasks) tasks.length (initState tasks)

/-- Python `max(topo_order, key=f)`: first element attaining the maximum. -/
def maxByFirst (f : String → Int) : List String → String
  | [] => ""
  | x :: xs => xs.foldl (fun b y => if f b < f y then y else b) x

/-- The trace-back loop of lines 289-294: follow predecessors from the
maximal-finish task, already reversed into execution order.  Fuel bounds
the walk; fuel `tasks.length` suffices because predecessor links strictly
decrease the topological index. -/
def traceBack (pred : String → Option String) : Nat → String → List String
  | 0, x => [x]
  | fuel + 1, x =>
    match pred x with
    | none => [x]
    | some p => traceBack pred fuel p ++ [x]

/-- The cycle fallback of line 285: `sorted(tasks, key=lambda t: t.priority)`
(a stable sort, so ties keep input order). -/
def fallbackSort (tasks : List Task) : List Task :=
  List.insertionSort (fun a b => a.priority ≤ b.priority) tasks

/-- `get_critical_path` on a materialized task list, with explicit fuel for
the two embedded loops. -/
def criticalPathF (tasks : List Task) (fuel : Nat) : List Task :=
  if tasks = [] then []
  else
    let s := kahnRun (children tasks) (wOf tasks) fuel (initState tasks)
    if s.topo.length ≠ tasks.length then fallbackSort tasks
    else
      let endId := maxByFirst (fun x => s.earliest x + wOf tasks x) s.topo
      (traceBack s.pred fuel endId).filterMap (taskOf tasks)

/-- `ProjectManager.get_critical_path` (lines 243-295) on the materialized
task list of one project. -/
def criticalPath (tasks : List Task) : List Task :=
  criticalPathF tasks tasks.length

/-! ## Entity store (SQLite layer)

The database is modelled as three flat relations in rowid (insertion)
order, exactly the three tables of the DDL (lines 56-89).  The
`dependencies` field of a stored `Task` row is ignored on read: the read
accessors re-materialize it from the dependency relation, as
`get_task` / `get_project_tasks` do with their second query. -/

structure Store where
  projects : List Project := []
  tasks : List Task := []
  deps : List (String × String) := []
  deriving DecidableEq, Repr

/-- `INSERT OR IGNORE INTO dependencies` — the composite primary key makes
duplicate edge insertion a no-op. -/
def insertEdge (d : List (String × String)) (e : String × String) :
    List (String × String) :=
  if e ∈ d then d else d ++ [e]

/-- `ProjectManager.add_task` (lines 161-177): store the row verbatim,
then insert one deduplicated edge per listed dependency. -/
def add_task (s : Store) (t : Task) : Store :=
  { s with
    tasks := s.tasks ++ [t]
    deps := t.dependencies.foldl (fun d dep => insertEdge d (t.id, dep)) s.deps }

/-- `ProjectManager.create_project` (lines 107-117). -/
def create_project (s : Store) (p : Project) : Store :=
  { s with projects := s.projects ++ [p] }

/-- `SELECT depends_on FROM dependencies WHERE task_id=?` in rowid order. -/
def depsOf (s : Store) (tid : String) : List String :=
  (s.deps.filter (fun e => e.1 == tid)).map Prod.snd

/-- `ProjectManager._row_to_task` (lines 193-204): attach the resolved
dependency list to a row. -/
def row_to_task (s : Store) (t : Task) : Task :=
  { t with dependencies := depsOf s t.id }

/-- `ProjectManager.get_project` (lines 119-131): first row matching the
id, or the absent sentinel. -/
def get_project (s : Store) (pid : String) : Option Project :=
  s.projects.find? (fun p => p.id == pid)

/-- `ProjectManager.get_task` (lines 179-191). -/
def get_task (s : Store) (tid : String) : Option Task :=
  (s.tasks.find? (fun t => t.id == tid)).map (row_to_task s)

/-- SQLite ascending order on a nullable column: `NULL` compares smaller
than every value, so rows with an absent due date sort first. -/
def dueLe : Option Int → Option Int → Prop
  | none, _ => True
  | some _, none => False
  | some x, some y => x ≤ y

instance : DecidableRel dueLe := fun a b =>
  match a, b with
  | none, _ => isTrue trivial
  | some _, none => isFalse (fun h => h)
  | some x, some y => inferInstanceAs (Decidable (x ≤ y))

theorem dueLe_trans : ∀ {x y z : Option Int}, dueLe x y → dueLe y z → dueLe x z := by
  intro x y z h1 h2
  match x, y, z with
  | none, _, _ => exact trivial
  | some a, none, _ => exact h1.elim
  | some a, some b, none => exact h2.elim
  | some a, some b, some c => exact le_trans h1 h2

theorem dueLe_total : ∀ x y : Option Int, dueLe x y ∨ dueLe y x := by
  intro x y
  match x, y with
  | none, _ => exact Or.inl trivial
  | some a, none => exact Or.inr trivial
  | some a, some b => exact le_total a b

/-- The `ORDER BY priority, due_date` key of `get_project_tasks`. -/
def rowLe (a b : Task) : Prop :=
  a.priority < b.priority ∨ (a.priority = b.priority ∧ dueLe a.due_date b.due_date)

instance : DecidableRel rowLe := fun a b =>
  decidable_of_iff
    (a.priority < b.priority ∨ (a.priority = b.priority ∧ dueLe a.due_date b.due_date))
    Iff.rfl

instance : IsTotal Task rowLe :=
  ⟨by
    intro a b
    rcases Int.lt_trichotomy a.priority b.priority with h | h | h
    · exact Or.inl (Or.inl h)
    · rcases dueLe_total a.due_date b.due_date with hd | hd
      · exact Or.inl (Or.inr ⟨h, hd⟩)
      · exact Or.inr (Or.inr ⟨h.symm, hd⟩)
    · exact Or.inr (Or.inl h)⟩

instance : IsTrans Task rowLe :=
  ⟨by
    intro a b c hab hbc
    rcases hab with h | ⟨h1, h2⟩
    · rcases hbc with h' | ⟨h1', _⟩
      · exact Or.inl (h.trans h')
      · exact Or.inl (h1' ▸ h)
    · rcases hbc with h' | ⟨h1', h2'⟩
      · exact Or.inl (h1 ▸ h')
      · exact Or.inr ⟨h1.trans h1', dueLe_trans h2 h2'⟩⟩

/-- `ProjectManager.get_project_tasks` (lines 206-221): the rows of one
project sorted by `(priority, due_date)` with SQLite NULLS-FIRST
semantics, each with its dependency list resolved.  A stable sort stands
in for the unspecified tie order of SQLite. -/
def get_project_tasks (s : Store) (pid : String) : List Task :=
  (List.insertionSort rowLe (s.tasks.filter (fun t => t.project_id == pid))).map
    (row_to_task s)

/-- `ProjectManager.update_task_status` (lines 223-232): set the status on
every row with the id (at most one in the real store), stamping
`completed_at` with the current time exactly when the new status is
`done` and clearing it otherwise.  Returns whether a row matched. -/
def update_task_status (s : Store) (tid status : String) (now : Int) :
    Store × Bool :=
  let completed : Option Int := if status = "done" then some now else none
  ({ s with
      tasks := s.tasks.map (fun t =>
        if t.id = tid then { t with status := status, completed_at := completed }
        else t) },
    s.tasks.any (fun t => t.id == tid))

/-- `ProjectManager.list_projects` (lines 133-150): optional status filter,
`ORDER BY deadline`. -/
def list_projects (s : Store) (status : Option String) : List Project :=
  List.insertionSort (fun a b => a.deadline ≤ b.deadline)
    (match status with
     | some st => s.projects.filter (fun p => p.status == st)
     | none => s.projects)

/-- `get_critical_path` at the store level (line 249 materializes the
task list through `get_project_tasks`). -/
def getCriticalPath (s : Store) (pid : String) : List Task :=
  criticalPath (get_project_tasks s pid)

/-! ## Burndown (`calculate_burndown`, lines 299-334) -/

/-- One element of the burndown chart list: the dict
`{"day": i, "date": ..., "ideal": ..., "actual": remaining}`.
The ideal value is exact rational arithmetic; Python computes the same
quantity in floating point, which agrees after rounding to two decimals
everywhere the claims evaluate it. -/
structure ChartPoint where
  day : Nat
  date : Int
  ideal : ℚ
  actual : Int
  deriving DecidableEq, Repr

/-- Python `round(x, 2)` (half-to-even differs from this half-up rounding
only at exact half-cent values, which never arise in the claims). -/
def round2 (q : ℚ) : ℚ := (⌊q * 100 + 1/2⌋ : ℚ) / 100

/-- Story points completed on day `d` (the `completed_by_day` map of
lines 316-321): done tasks whose completion date is `d`, counted only
when the completion date is on or after the window start. -/
def completedOn (tasks : List Task) (start d : Int) : Int :=
  ((tasks.filter (fun t =>
      t.status == "done" &&
        match t.completed_at with
        | some c => decide (start ≤ c) && decide (c = d)
        | none => false)).map Task.story_points).sum

/-- The body of the `for i in range(sprint_days + 1)` loop of
lines 325-333: subtract the day's completions from the running remainder
and append one chart point. -/
def burnStep (tasks : List Task) (start total : Int) (idealPerDay : ℚ)
    (acc : Int × List ChartPoint) (i : Nat) : Int × List ChartPoint :=
  let day := start + (i : Int)
  let rem := acc.1 - completedOn tasks start day
  (rem, acc.2 ++
    [{ day := i, date := day
       ideal := round2 ((total : ℚ) - idealPerDay * (i : ℚ))
       actual := rem }])

/-- `ProjectManager.calculate_burndown` (lines 299-334).  Raises
`ZeroDivisionError` when the sprint length is zero and there is anything
to chart (`total_points / sprint_days` on line 313 is unguarded). -/
def calculate_burndown (s : Store) (pid : String) (sprint_days : Int)
    (today : Int) : Except String (List ChartPoint) :=
  let tasks := get_project_tasks s pid
  let total : Int := (tasks.map Task.story_points).sum
  if total = 0 then .ok []
  else if sprint_days = 0 then .error "ZeroDivisionError"
  else
    let start := today - sprint_days
    let idealPerDay : ℚ := (total : ℚ) / (sprint_days : ℚ)
    .ok ((List.range (sprint_days + 1).toNat).foldl
      (burnStep tasks start total idealPerDay) (total, [])).2

/-! ## Deadline alerts (`check_deadlines`, lines 368-411) -/

/-- One alert record.  Python emits dicts of two shapes (project alerts
with name/owner/deadline, task alerts with title/assignee/due_date); the
shared sort key and classification live in `days_remaining` / `urgency`. -/
structure Alert where
  kind : String
  id : String
  label : String
  who : String
  date : Int
  days_remaining : Int
  urgency : String
  deriving DecidableEq, Repr

/-- The urgency classification of lines 380 and 399. -/
def urgencyOf (delta : Int) : String :=
  if delta < 0 then "overdue" else if delta = 0 then "today" else "upcoming"

/-- `ProjectManager.check_deadlines` (lines 368-411): active projects due
within the window, non-done non-blocked tasks due within the window, all
sorted ascending by days remaining (Python `list.sort` is stable). -/
def check_deadlines (s : Store) (days_ahead : Int) (today : Int) : List Alert :=
  let projAlerts :=
    ((list_projects s (some "active")).filter
        (fun p => decide (p.deadline - today ≤ days_ahead))).map
      (fun p =>
        { kind := "project", id := p.id, label := p.name, who := p.owner
          date := p.deadline, days_remaining := p.deadline - today
          urgency := urgencyOf (p.deadline - today) })
  let taskAlerts :=
    ((s.tasks.filter (fun t =>
          !(t.status == "done") && !(t.status == "blocked") &&
            match t.due_date with
            | some d => decide (d ≤ today + days_ahead)
            | none => false)).map
      (fun t =>
        let due := t.due_date.getD 0
        { kind := "task", id := t.id, label := t.title, who := t.assignee
          date := due, days_remaining := due - today
          urgency := urgencyOf (due - today) }))
  List.insertionSort (fun a b => a.days_remaining ≤ b.days_remaining)
    (projAlerts ++ taskAlerts)

/-! ## Gantt CSV export (`export_gantt_csv`, lines 338-364) -/

/-- Minimal-quoting CSV field encoding of the Python `csv` module default
dialect: quote when the field holds a delimiter, quote, or line break,
doubling embedded quotes. -/
def csvField (f : String) : String :=
  if f.contains ',' || f.contains '"' || f.contains '\r' || f.contains '\n' then
    "\"" ++ f.replace "\"" "\"\"" ++ "\""
  else f

/-- One CSV row with the CRLF terminator the `csv` module writes. -/
def csvRow (fields : List String) : String :=
  String.intercalate "," (fields.map csvField) ++ "\r\n"

/-- `ProjectManager.export_gantt_csv` (lines 338-364): fails with a
not-found error exactly when the project id does not resolve, else one
header row plus one row per task with the critical-path membership flag. -/
def export_gantt_csv (s : Store) (pid : String) : Except String String :=
  match get_project s pid with
  | none => .error ("Project " ++ pid ++ " not found")
  | some _ =>
    let tasks := get_project_tasks s pid
    let cpIds := (getCriticalPath s pid).map Task.id
    .ok (csvRow ["Task ID", "Title", "Assignee", "Priority", "Status",
                 "Story Points", "Due Date", "Dependencies", "Critical Path"] ++
      String.join (tasks.map (fun t =>
        csvRow [t.id.take 8, t.title, t.assignee, toString t.priority, t.status,
                toString t.story_points,
                (t.due_date.map toString).getD "",
                String.intercalate "|" (t.dependencies.map (fun d => d.take 8)),
                if t.id ∈ cpIds then "YES" else "no"])))

/-! ## Operation sequences over the entity store (for the C5 invariant) -/

/-- One entity-store mutation, as named by claim C5. -/
inductive Op where
  | add (t : Task) : Op
  | updStatus (tid status : String) (now : Int) : Op
  deriving DecidableEq, Repr

/-- Apply one mutation to the store. -/
def applyOp (s : Store) (op : Op) : Store :=
  match op with
  | .add t => add_task s t
  | .updStatus tid status now => (update_task_status s tid status now).1

/-- The claimed invariant: a stored task has a completion timestamp
exactly when its status is `done`. -/
def DoneInv (s : Store) : Prop :=
  ∀ t ∈ s.tasks, t.completed_at.isSome ↔ t.status = "done"

instance (s : Store) : Decidable (DoneInv s) := by
  unfold DoneInv; infer_instance

/-! ## Dependency-graph notions used to state the claims -/

/-- A restricted dependency edge: `p → c` when the task with id `c` lists
`p` among its dependencies and `p` resolves inside the input set. -/
def Edge (tasks : List Task) (p c : String) : Prop :=
  ∃ t ∈ tasks, t.id = c ∧ p ∈ restrictedDeps tasks t

instance (tasks : List Task) (p c : String) : Decidable (Edge tasks p c) :=
  decidable_of_iff (∃ t ∈ tasks, t.id = c ∧ p ∈ restrictedDeps tasks t) Iff.rfl

/-- Acyclicity of the restricted edge set, as the existence of a rank
function strictly increasing along every edge (the standard DAG
characterization). -/
def Acyclic (tasks : List Task) : Prop :=
  ∃ rank : String → Nat,
    ∀ t ∈ tasks, ∀ d ∈ restrictedDeps tasks t, rank d < rank t.id

/-- A cycle in the restricted edge set: a chain of edges from `x` back to
`x`.  The one-element case `Chain _ x [x]` is a self-dependency. -/
def HasCycle (tasks : List Task) : Prop :=
  ∃ x : String, ∃ l : List String, List.Chain (Edge tasks) x (l ++ [x])

/-! ## Basic lemmas about the graph helpers -/

theorem mem_taskIds {tasks : List Task} {x : String} :
    x ∈ taskIds tasks ↔ ∃ t ∈ tasks, t.id = x := by
  simp [taskIds]

theorem mem_restrictedDeps {tasks : List Task} {t : Task} {p : String} :
    p ∈ restrictedDeps tasks t ↔ p ∈ t.dependencies ∧ p ∈ taskIds tasks := by
  simp [restrictedDeps]

theorem restrictedDeps_subset_ids {tasks : List Task} {t : Task} {p : String}
    (h : p ∈ restrictedDeps tasks t) : p ∈ taskIds tasks :=
  (mem_restrictedDeps.mp h).2

theorem restrictedDeps_nodup {tasks : List Task} {t : Task}
    (h : t.dependencies.Nodup) : (restrictedDeps tasks t).Nodup :=
  h.filter _

theorem taskOf_eq_some_iff {tasks : List Task} {x : String} {t : Task} :
    taskOf tasks x = some t → t ∈ tasks ∧ t.id = x := by
  intro h
  have hm := List.mem_of_find?_eq_some h
  have hp := List.find?_some h
  simp at hp
  exact ⟨hm, hp⟩

theorem taskOf_self {tasks : List Task} {t : Task}
    (hn : (taskIds tasks).Nodup) (ht : t ∈ tasks) :
    taskOf tasks t.id = some t := by
  induction tasks with
  | nil => cases ht
  | cons a l ih =>
    have hcons : (a.id :: taskIds l).Nodup := by
      simpa [taskIds] using hn
    rcases List.mem_cons.mp ht with rfl | hmem
    · simp [taskOf]
    · have hna : a.id ∉ taskIds l := (List.nodup_cons.mp hcons).1
      have hne : ¬ (a.id == t.id) = true := by
        simp only [beq_iff_eq]
        intro he
        exact hna (he ▸ mem_taskIds.mpr ⟨t, hmem, rfl⟩)
      have hn' : (taskIds l).Nodup := (List.nodup_cons.mp hcons).2
      simpa [taskOf, List.find?, hne] using ih hn' hmem

theorem taskOf_eq_none {tasks : List Task} {x : String}
    (h : x ∉ taskIds tasks) : taskOf tasks x = none := by
  rw [taskOf, List.find?_eq_none]
  intro t ht
  simp only [beq_iff_eq]
  intro he
  exact h (mem_taskIds.mpr ⟨t, ht, he⟩)

theorem wOf_eq {tasks : List Task} {t : Task}
    (hn : (taskIds tasks).Nodup) (ht : t ∈ tasks) :
    wOf tasks t.id = t.story_points := by
  simp [wOf, taskOf_self hn ht]

theorem initInDeg_eq {tasks : List Task} {t : Task}
    (hn : (taskIds tasks).Nodup) (ht : t ∈ tasks) :
    initInDeg tasks t.id = ((restrictedDeps tasks t).length : Int) := by
  simp [initInDeg, taskOf_self hn ht]

theorem mem_children {tasks : List Task} {d c : String} :
    c ∈ children tasks d ↔ ∃ t ∈ tasks, t.id = c ∧ d ∈ restrictedDeps tasks t := by
  simp [children]
  constructor
  · rintro ⟨t, ⟨ht, hd⟩, rfl⟩
    exact ⟨t, ht, rfl, hd⟩
  · rintro ⟨t, ht, rfl, hd⟩
    exact ⟨t, ⟨ht, hd⟩, rfl⟩

theorem children_subset_ids {tasks : List Task} {d c : String}
    (h : c ∈ children tasks d) : c ∈ taskIds tasks := by
  rcases mem_children.mp h with ⟨t, ht, rfl, _⟩
  exact mem_taskIds.mpr ⟨t, ht, rfl⟩

theorem children_nodup {tasks : List Task} (hn : (taskIds tasks).Nodup)
    (d : String) : (children tasks d).Nodup := by
  have hsub : (tasks.filter (fun t => decide (d ∈ restrictedDeps tasks t))).Sublist tasks :=
    List.filter_sublist tasks
  have : ((tasks.filter (fun t => decide (d ∈ restrictedDeps tasks t))).map Task.id).Sublist
      (taskIds tasks) := hsub.map Task.id
  exact hn.sublist this

theorem mem_children_id {tasks : List Task} {t : Task} {d : String}
    (hn : (taskIds tasks).Nodup) (ht : t ∈ tasks) :
    t.id ∈ children tasks d ↔ d ∈ restrictedDeps tasks t := by
  constructor
  · intro h
    rcases mem_children.mp h with ⟨u, hu, hid, hd⟩
    have : taskOf tasks u.id = some u := taskOf_self hn hu
    have ht' : taskOf tasks t.id = some t := taskOf_self hn ht
    rw [hid] at this
    rw [this] at ht'
    cases ht'
    exact hd
  · intro h
    exact mem_children.mpr ⟨t, ht, rfl, h⟩

theorem edge_mem_ids {tasks : List Task} {p c : String} (h : Edge tasks p c) :
    p ∈ taskIds tasks ∧ c ∈ taskIds tasks := by
  rcases h with ⟨t, ht, rfl, hp⟩
  exact ⟨restrictedDeps_subset_ids hp, mem_taskIds.mpr ⟨t, ht, rfl⟩⟩

/-! ## Index-in-list helper for topological positions -/

/-- Position of the first occurrence of `x` in `l` (length if absent). -/
def idxOf : List String → String → Nat
  | [], _ => 0
  | a :: l, x => if a = x then 0 else idxOf l x + 1

theorem idxOf_lt_length {l : List String} {x : String} (h : x ∈ l) :
    idxOf l x < l.length := by
  induction l with
  | nil => cases h
  | cons a l ih =>
    by_cases hax : a = x
    · simp [idxOf, hax]
    · rcases List.mem_cons.mp h with rfl | hm
      · exact absurd rfl hax
      · simpa [idxOf, hax] using ih hm

theorem idxOf_append_left {l l' : List String} {x : String} (h : x ∈ l) :
    idxOf (l ++ l') x = idxOf l x := by
  induction l with
  | nil => cases h
  | cons a l ih =>
    by_cases hax : a = x
    · simp [idxOf, hax]
    · rcases List.mem_cons.mp h with rfl | hm
      · exact absurd rfl hax
      · simp [idxOf, hax, ih hm]

theorem idxOf_append_right {l l' : List String} {x : String} (h : x ∉ l) :
    idxOf (l ++ l') x = l.length + idxOf l' x := by
  induction l with
  | nil => simp
  | cons a l ih =>
    have hax : a ≠ x := fun he => h (he ▸ List.mem_cons_self a l)
    have hm : x ∉ l := fun hm => h (List.mem_cons_of_mem a hm)
    simp [idxOf, hax, ih hm]
    omega

/-! ## Pointwise characterization of one Kahn iteration

`relaxChild` touches only the key it visits, so a fold over a duplicate-free
children list acts pointwise; these closed forms drive every invariant
preservation proof below. -/

theorem relaxChild_topo (f : Int) (tid : String) (s : KahnState) (c : String) :
    (relaxChild f tid s c).topo = s.topo := by
  by_cases h1 : s.earliest c < f <;> by_cases h2 : s.inDeg c - 1 = 0 <;>
    simp [relaxChild, h1, h2]

theorem relaxChild_inDeg (f : Int) (tid : String) (s : KahnState) (c : String) :
    (relaxChild f tid s c).inDeg = upd s.inDeg c (s.inDeg c - 1) := by
  by_cases h1 : s.earliest c < f <;> by_cases h2 : s.inDeg c - 1 = 0 <;>
    simp [relaxChild, h1, h2]

theorem relaxChild_earliest (f : Int) (tid : String) (s : KahnState) (c : String) :
    (relaxChild f tid s c).earliest =
      if s.earliest c < f then upd s.earliest c f else s.earliest := by
  by_cases h1 : s.earliest c < f <;> by_cases h2 : s.inDeg c - 1 = 0 <;>
    simp [relaxChild, h1, h2]

theorem relaxChild_pred (f : Int) (tid : String) (s : KahnState) (c : String) :
    (relaxChild f tid s c).pred =
      if s.earliest c < f then upd s.pred c (some tid) else s.pred := by
  by_cases h1 : s.earliest c < f <;> by_cases h2 : s.inDeg c - 1 = 0 <;>
    simp [relaxChild, h1, h2]

theorem relaxChild_queue (f : Int) (tid : String) (s : KahnState) (c : String) :
    (relaxChild f tid s c).queue =
      if s.inDeg c - 1 = 0 then s.queue ++ [c] else s.queue := by
  by_cases h1 : s.earliest c < f <;> by_cases h2 : s.inDeg c - 1 = 0 <;>
    simp [relaxChild, h1, h2]

theorem foldRelax_topo (f : Int) (tid : String) (cs : List String) (s : KahnState) :
    (cs.foldl (relaxChild f tid) s).topo = s.topo := by
  induction cs generalizing s with
  | nil => rfl
  | cons c cs ih => simp [List.foldl_cons, ih, relaxChild_topo]

theorem foldRelax_inDeg (f : Int) (tid : String) {cs : List String} (s : KahnState)
    (hcs : cs.Nodup) (x : String) :
    (cs.foldl (relaxChild f tid) s).inDeg x =
      if x ∈ cs then s.inDeg x - 1 else s.inDeg x := by
  induction cs generalizing s with
  | nil => simp
  | cons c cs ih =>
    rcases List.nodup_cons.mp hcs with ⟨hc, hcs'⟩
    rw [List.foldl_cons, ih _ hcs']
    rw [relaxChild_inDeg]
    by_cases hx : x = c
    · subst hx
      simp [hc]
    · rw [upd_ne _ _ hx]
      by_cases hmem : x ∈ cs <;> simp [hmem, hx]

theorem foldRelax_earliest (f : Int) (tid : String) {cs : List String} (s : KahnState)
    (hcs : cs.Nodup) (x : String) :
    (cs.foldl (relaxChild f tid) s).earliest x =
      if x ∈ cs ∧ s.earliest x < f then f else s.earliest x := by
  induction cs generalizing s with
  | nil => simp
  | cons c cs ih =>
    rcases List.nodup_cons.mp hcs with ⟨hc, hcs'⟩
    rw [List.foldl_cons, ih _ hcs']
    have he1 : (relaxChild f tid s c).earliest x =
        if x = c ∧ s.earliest c < f then f else s.earliest x := by
      rw [relaxChild_earliest]
      by_cases hx : x = c
      · subst hx
        by_cases hcf : s.earliest x < f <;> simp [hcf]
      · by_cases hcf : s.earliest c < f <;> simp [hcf, hx, upd_ne]
    by_cases hx : x = c
    · subst hx
      simp only [hc, false_and, if_false, he1]  -- x ∉ cs
      by_cases hcf : s.earliest x < f <;> simp [hcf, hc]
    · rw [he1]
      simp only [hx, false_and, if_false]
      by_cases hmem : x ∈ cs <;> simp [hmem, hx]

theorem foldRelax_pred (f : Int) (tid : String) {cs : List String} (s : KahnState)
    (hcs : cs.Nodup) (x : String) :
    (cs.foldl (relaxChild f tid) s).pred x =
      if x ∈ cs ∧ s.earliest x < f then some tid else s.pred x := by
  induction cs generalizing s with
  | nil => simp
  | cons c cs ih =>
    rcases List.nodup_cons.mp hcs with ⟨hc, hcs'⟩
    rw [List.foldl_cons, ih _ hcs']
    have he1 : (relaxChild f tid s c).earliest x =
        if x = c ∧ s.earliest c < f then f else s.earliest x := by
      rw [relaxChild_earliest]
      by_cases hx : x = c
      · subst hx
        by_cases hcf : s.earliest x < f <;> simp [hcf]
      · by_cases hcf : s.earliest c < f <;> simp [hcf, hx, upd_ne]
    have hp1 : (relaxChild f tid s c).pred x =
        if x = c ∧ s.earliest c < f then some tid else s.pred x := by
      rw [relaxChild_pred]
      by_cases hx : x = c
      · subst hx
        by_cases hcf : s.earliest x < f <;> simp [hcf]
      · by_cases hcf : s.earliest c < f <;> simp [hcf, hx, upd_ne]
    by_cases hx : x = c
    · subst hx
      simp only [hc, false_and, if_false, hp1, he1]
      by_cases hcf : s.earliest x < f <;> simp [hcf, hc]
    · rw [hp1, he1]
      simp only [hx, false_and, if_false]
      by_cases hmem : x ∈ cs <;> simp [hmem, hx]

theorem foldRelax_queue (f : Int) (tid : String) {cs : List String} (s : KahnState)
    (hcs : cs.Nodup) :
    (cs.foldl (relaxChild f tid) s).queue =
      s.queue ++ cs.filter (fun c => decide (s.inDeg c = 1)) := by
  induction cs generalizing s with
  | nil => simp
  | cons c cs ih =>
    rcases List.nodup_cons.mp hcs with ⟨hc, hcs'⟩
    rw [List.foldl_cons, ih _ hcs']
    have hq : (relaxChild f tid s c).queue =
        if s.inDeg c = 1 then s.queue ++ [c] else s.queue := by
      rw [relaxChild_queue]
      by_cases h : s.inDeg c - 1 = 0
      · have : s.inDeg c = 1 := by omega
        simp [h, this]
      · have : ¬ s.inDeg c = 1 := by omega
        simp [h, this]
    have hfc : cs.filter (fun y => decide ((relaxChild f tid s c).inDeg y = 1)) =
        cs.filter (fun y => decide (s.inDeg y = 1)) := by
      apply List.filter_congr
      intro y hy
      have hyc : y ≠ c := fun he => hc (he ▸ hy)
      rw [relaxChild_inDeg, upd_ne _ _ hyc]
    rw [hfc, hq]
    by_cases h1 : s.inDeg c = 1 <;> simp [h1, List.filter_cons]

theorem popStep_topo (chil : String → List String) (w : String → Int)
    (s : KahnState) (tid : String) (rest : List String) :
    (popStep chil w s tid rest).topo = s.topo ++ [tid] := by
  simp [popStep, foldRelax_topo]

theorem popStep_inDeg (chil : String → List String) (w : String → Int)
    (s : KahnState) (tid : String) (rest : List String)
    (hcs : (chil tid).Nodup) (x : String) :
    (popStep chil w s tid rest).inDeg x =
      if x ∈ chil tid then s.inDeg x - 1 else s.inDeg x := by
  simp [popStep, foldRelax_inDeg _ _ _ hcs]

theorem popStep_earliest (chil : String → List String) (w : String → Int)
    (s : KahnState) (tid : String) (rest : List String)
    (hcs : (chil tid).Nodup) (x : String) :
    (popStep chil w s tid rest).earliest x =
      if x ∈ chil tid ∧ s.earliest x < s.earliest tid + w tid
      then s.earliest tid + w tid else s.earliest x := by
  simp [popStep, foldRelax_earliest _ _ _ hcs]

theorem popStep_pred (chil : String → List String) (w : String → Int)
    (s : KahnState) (tid : String) (rest : List String)
    (hcs : (chil tid).Nodup) (x : String) :
    (popStep chil w s tid rest).pred x =
      if x ∈ chil tid ∧ s.earliest x < s.earliest tid + w tid
      then some tid else s.pred x := by
  simp [popStep, foldRelax_pred _ _ _ hcs]

theorem popStep_queue (chil : String → List String) (w : String → Int)
    (s : KahnState) (tid : String) (rest : List String)
    (hcs : (chil tid).Nodup) :
    (popStep chil w s tid rest).queue =
      rest ++ (chil tid).filter (fun c => decide (s.inDeg c = 1)) := by
  simp [popStep, foldRelax_queue _ _ _ hcs]

/-! ## Small list facts used by the invariant bookkeeping -/

theorem filter_notMem_append_single (l topo : List String) (tid : String) :
    l.filter (fun p => decide (p ∉ topo ++ [tid])) =
      (l.filter (fun p => decide (p ∉ topo))).filter (fun p => decide (p ≠ tid)) := by
  rw [List.filter_filter]
  apply List.filter_congr
  intro a _
  by_cases h1 : a ∈ topo <;> by_cases h2 : a = tid <;> simp [h1, h2]

theorem filter_ne_eq_self {l : List String} {a : String} (h : a ∉ l) :
    l.filter (fun p => decide (p ≠ a)) = l := by
  apply List.filter_eq_self.mpr
  intro b hb
  simp only [decide_eq_true_eq]
  exact fun he => h (he ▸ hb)

theorem length_filter_ne {l : List String} {a : String} (hn : l.Nodup) (h : a ∈ l) :
    (l.filter (fun p => decide (p ≠ a))).length = l.length - 1 := by
  induction l with
  | nil => cases h
  | cons b l ih =>
    rcases List.nodup_cons.mp hn with ⟨hb, hn'⟩
    rcases List.mem_cons.mp h with rfl | hm
    · simp only [List.filter_cons]
      rw [filter_ne_eq_self hb]
      simp
    · have hba : b ≠ a := fun he => hb (he ▸ hm)
      have hlen : 1 ≤ l.length := List.length_pos.mpr (List.ne_nil_of_mem hm)
      have hih := ih hn' hm
      simp at hih
      simp [List.filter_cons, hba]
      omega

theorem eq_singleton_of_all_eq {l : List String} {a : String} (hn : l.Nodup)
    (hall : ∀ x ∈ l, x = a) (ha : a ∈ l) : l = [a] := by
  cases l with
  | nil => cases ha
  | cons b l =>
    have hb : b = a := hall b (List.mem_cons_self _ _)
    subst hb
    cases l with
    | nil => rfl
    | cons c l =>
      have hc : c = b := hall c (by simp)
      rcases List.nodup_cons.mp hn with ⟨hbl, _⟩
      exact absurd (hc ▸ List.mem_cons_self c l) hbl

/-! ## The Kahn loop invariant

`seen` abbreviates `s.topo ++ s.queue`: the ids that have ever entered
the ready queue.  The invariant captures the in-degree accounting, the
single-enqueue discipline, and the longest-path labelling discipline of
the loop in `get_critical_path`. -/

structure Inv (tasks : List Task) (s : KahnState) : Prop where
  seen_nodup : (s.topo ++ s.queue).Nodup
  seen_sub : ∀ x ∈ s.topo ++ s.queue, x ∈ taskIds tasks
  inDeg_eq : ∀ t ∈ tasks,
    s.inDeg t.id =
      (((restrictedDeps tasks t).filter (fun p => decide (p ∉ s.topo))).length : Int)
  seen_iff : ∀ t ∈ tasks,
    (t.id ∈ s.topo ++ s.queue ↔ ∀ p ∈ restrictedDeps tasks t, p ∈ s.topo)
  topo_edge : ∀ t ∈ tasks, t.id ∈ s.topo →
    ∀ p ∈ restrictedDeps tasks t, p ∈ s.topo ∧ idxOf s.topo p < idxOf s.topo t.id
  pred_spec : ∀ x p, s.pred x = some p →
    p ∈ s.topo ∧ Edge tasks p x ∧
      s.earliest x = s.earliest p + wOf tasks p ∧
      (x ∈ s.topo → idxOf s.topo p < idxOf s.topo x)
  pred_none_earliest : ∀ x, s.pred x = none → s.earliest x = 0
  earliest_nonneg : ∀ x, 0 ≤ s.earliest x
  edge_relax : ∀ t ∈ tasks, ∀ p ∈ restrictedDeps tasks t, p ∈ s.topo →
    s.earliest p + wOf tasks p ≤ s.earliest t.id

theorem inv_init (tasks : List Task) (hids : (taskIds tasks).Nodup) :
    Inv tasks (initState tasks) := by
  constructor
  · -- seen_nodup: the seed queue is a sublist of the (duplicate-free) id list
    have hsub : ((tasks.filter (fun t => decide (initInDeg tasks t.id = 0))).map Task.id).Sublist
        (taskIds tasks) := (List.filter_sublist tasks).map Task.id
    simpa [initState] using hids.sublist hsub
  · intro x hx
    simp only [initState, List.nil_append] at hx
    rcases List.mem_map.mp hx with ⟨t, ht, rfl⟩
    exact mem_taskIds.mpr ⟨t, List.mem_of_mem_filter ht, rfl⟩
  · intro t ht
    simp only [initState]
    rw [initInDeg_eq hids ht]
    congr 1
    rw [List.filter_eq_self.mpr]
    intro p _
    simp
  · intro t ht
    simp only [initState, List.nil_append]
    constructor
    · intro hmem p hp
      rcases List.mem_map.mp hmem with ⟨u, hu, hid⟩
      have hu' := List.mem_filter.mp hu
      have : u = t := by
        have h1 := taskOf_self hids (List.mem_of_mem_filter hu)
        have h2 := taskOf_self hids ht
        rw [hid] at h1
        rw [h1] at h2
        cases h2
        rfl
      subst this
      have hz : initInDeg tasks u.id = 0 := by
        have := hu'.2
        simpa using this
      rw [initInDeg_eq hids ht] at hz
      have : restrictedDeps tasks u = [] := List.length_eq_zero.mp (by exact_mod_cast hz)
      rw [this] at hp
      cases hp
    · intro hall
      have hempty : restrictedDeps tasks t = [] := by
        cases hrd : restrictedDeps tasks t with
        | nil => rfl
        | cons p l =>
          exact absurd (hall p (by rw [hrd]; exact List.mem_cons_self _ _)) (by simp)
      refine List.mem_map.mpr ⟨t, List.mem_filter.mpr ⟨ht, ?_⟩, rfl⟩
      simp [initInDeg_eq hids ht, hempty]
  · intro t _ hmem
    simp [initState] at hmem
  · intro x p hp
    simp [initState] at hp
  · intro x _
    rfl
  · intro x
    simp [initState]
  · intro t _ p _ hp
    simp [initState] at hp

theorem inv_popStep (tasks : List Task)
    (hids : (taskIds tasks).Nodup)
    (hdeps : ∀ t ∈ tasks, t.dependencies.Nodup)
    {s : KahnState} {tid : String} {rest : List String}
    (hq : s.queue = tid :: rest) (H : Inv tasks s) :
    Inv tasks (popStep (children tasks) (wOf tasks) s tid rest) := by
  have hcs : (children tasks tid).Nodup := children_nodup hids tid
  have htidQ : tid ∈ s.queue := by rw [hq]; exact List.mem_cons_self _ _
  have htidSeen : tid ∈ s.topo ++ s.queue := List.mem_append_right _ htidQ
  have htidNotTopo : tid ∉ s.topo := by
    intro hmem
    exact (List.nodup_append.mp H.seen_nodup).2.2 hmem htidQ
  have htidIds : tid ∈ taskIds tasks := H.seen_sub tid htidSeen
  have hNotSeen : ∀ c ∈ children tasks tid, c ∉ s.topo ++ s.queue := by
    intro c hc hcSeen
    obtain ⟨u, hu, rfl, hdep⟩ := mem_children.mp hc
    exact htidNotTopo ((H.seen_iff u hu).mp hcSeen tid hdep)
  have htidNotChild : tid ∉ children tasks tid := fun h => hNotSeen tid h htidSeen
  have hnewNodup : ((children tasks tid).filter
      (fun c => decide (s.inDeg c = 1))).Nodup := hcs.filter _
  have hseen' : (popStep (children tasks) (wOf tasks) s tid rest).topo ++
      (popStep (children tasks) (wOf tasks) s tid rest).queue =
      (s.topo ++ s.queue) ++
        (children tasks tid).filter (fun c => decide (s.inDeg c = 1)) := by
    rw [popStep_topo, popStep_queue _ _ _ _ _ hcs, hq]
    simp
  constructor
  · -- seen_nodup
    rw [hseen']
    refine List.nodup_append.mpr ⟨H.seen_nodup, hnewNodup, ?_⟩
    intro a ha hanew
    exact hNotSeen a (List.mem_of_mem_filter hanew) ha
  · -- seen_sub
    intro x hx
    rw [hseen'] at hx
    rcases List.mem_append.mp hx with hold | hnew
    · exact H.seen_sub x hold
    · exact children_subset_ids (List.mem_of_mem_filter hnew)
  · -- inDeg_eq
    intro t ht
    rw [popStep_inDeg _ _ _ _ _ hcs, popStep_topo]
    have hOld := H.inDeg_eq t ht
    have hrdNodup : (restrictedDeps tasks t).Nodup := restrictedDeps_nodup (hdeps t ht)
    have hofNodup : ((restrictedDeps tasks t).filter
        (fun p => decide (p ∉ s.topo))).Nodup := hrdNodup.filter _
    rw [filter_notMem_append_single]
    by_cases hmem : t.id ∈ children tasks tid
    · have hdepTid : tid ∈ restrictedDeps tasks t := (mem_children_id hids ht).mp hmem
      have htidF : tid ∈ (restrictedDeps tasks t).filter (fun p => decide (p ∉ s.topo)) :=
        List.mem_filter.mpr ⟨hdepTid, by simp [htidNotTopo]⟩
      have hlen := length_filter_ne hofNodup htidF
      have hpos : 1 ≤ ((restrictedDeps tasks t).filter
          (fun p => decide (p ∉ s.topo))).length :=
        List.length_pos.mpr (List.ne_nil_of_mem htidF)
      simp only [hmem, if_true]
      omega
    · have hdepTid : tid ∉ restrictedDeps tasks t :=
        fun h => hmem ((mem_children_id hids ht).mpr h)
      have htidF : tid ∉ (restrictedDeps tasks t).filter (fun p => decide (p ∉ s.topo)) :=
        fun h => hdepTid (List.mem_of_mem_filter h)
      rw [filter_ne_eq_self htidF]
      simp only [hmem, if_false]
      exact hOld
  · -- seen_iff
    intro t ht
    rw [hseen', popStep_topo]
    have hOld := H.inDeg_eq t ht
    have hrdNodup : (restrictedDeps tasks t).Nodup := restrictedDeps_nodup (hdeps t ht)
    have hofNodup : ((restrictedDeps tasks t).filter
        (fun p => decide (p ∉ s.topo))).Nodup := hrdNodup.filter _
    constructor
    · intro hx p hp
      rcases List.mem_append.mp hx with hold | hnew
      · exact List.mem_append_left _ ((H.seen_iff t ht).mp hold p hp)
      · have hcsMem := List.mem_filter.mp hnew
        have hdeg1 : s.inDeg t.id = 1 := by simpa using hcsMem.2
        have hdepTid : tid ∈ restrictedDeps tasks t :=
          (mem_children_id hids ht).mp hcsMem.1
        by_cases hpt : p ∈ s.topo
        · exact List.mem_append_left _ hpt
        · have hlen1 : ((restrictedDeps tasks t).filter
              (fun q => decide (q ∉ s.topo))).length = 1 := by
            rw [hOld] at hdeg1
            exact_mod_cast hdeg1
          obtain ⟨z, hz⟩ := List.length_eq_one.mp hlen1
          have htidz : tid = z := by
            have : tid ∈ [z] := hz ▸ List.mem_filter.mpr ⟨hdepTid, by simp [htidNotTopo]⟩
            simpa using this
          have hpz : p = z := by
            have : p ∈ [z] := hz ▸ List.mem_filter.mpr ⟨hp, by simp [hpt]⟩
            simpa using this
          rw [hpz, ← htidz]
          exact List.mem_append_right _ (List.mem_singleton_self tid)
    · intro hall
      by_cases hsub : ∀ p ∈ restrictedDeps tasks t, p ∈ s.topo
      · exact List.mem_append_left _ ((H.seen_iff t ht).mpr hsub)
      · push_neg at hsub
        obtain ⟨p0, hp0, hp0t⟩ := hsub
        have hp0tid : p0 = tid := by
          rcases List.mem_append.mp (hall p0 hp0) with h | h
          · exact absurd h hp0t
          · simpa using h
        have hdepTid : tid ∈ restrictedDeps tasks t := hp0tid ▸ hp0
        have hmem : t.id ∈ children tasks tid := (mem_children_id hids ht).mpr hdepTid
        have hallF : ∀ x ∈ (restrictedDeps tasks t).filter
            (fun q => decide (q ∉ s.topo)), x = tid := by
          intro x hx
          have hx' := List.mem_filter.mp hx
          have hxnt : x ∉ s.topo := by simpa using hx'.2
          rcases List.mem_append.mp (hall x hx'.1) with h | h
          · exact absurd h hxnt
          · simpa using h
        have htidF : tid ∈ (restrictedDeps tasks t).filter (fun q => decide (q ∉ s.topo)) :=
          List.mem_filter.mpr ⟨hdepTid, by simp [htidNotTopo]⟩
        have hsing := eq_singleton_of_all_eq hofNodup hallF htidF
        have hdeg1 : s.inDeg t.id = 1 := by
          rw [hOld, hsing]
          rfl
        refine List.mem_append_right _ (List.mem_filter.mpr ⟨hmem, by simp [hdeg1]⟩)
  · -- topo_edge
    intro t ht ht' p hp
    rw [popStep_topo] at ht' ⊢
    rcases List.mem_append.mp ht' with hOldT | hTid
    · obtain ⟨hpt, hidx⟩ := H.topo_edge t ht hOldT p hp
      refine ⟨List.mem_append_left _ hpt, ?_⟩
      rw [idxOf_append_left hpt, idxOf_append_left hOldT]
      exact hidx
    · have htEq : t.id = tid := by simpa using hTid
      have hsub : ∀ q ∈ restrictedDeps tasks t, q ∈ s.topo :=
        (H.seen_iff t ht).mp (htEq ▸ htidSeen)
      have hpt := hsub p hp
      refine ⟨List.mem_append_left _ hpt, ?_⟩
      rw [idxOf_append_left hpt, htEq, idxOf_append_right htidNotTopo]
      have : idxOf [tid] tid = 0 := by simp [idxOf]
      rw [this]
      have := idxOf_lt_length hpt
      omega
  · -- pred_spec
    intro x p hpred
    rw [popStep_pred _ _ _ _ _ hcs] at hpred
    rw [popStep_topo]
    by_cases hrel : x ∈ children tasks tid ∧
        s.earliest x < s.earliest tid + wOf tasks tid
    · rw [if_pos hrel] at hpred
      have hptid : p = tid := by
        cases hpred
        rfl
      rw [hptid]
      have hxNotSeen : x ∉ s.topo ++ s.queue := hNotSeen x hrel.1
      have hxNotTopo' : x ∉ s.topo ++ [tid] := by
        intro hx
        rcases List.mem_append.mp hx with h | h
        · exact hxNotSeen (List.mem_append_left _ h)
        · have : x = tid := by simpa using h
          exact hxNotSeen (this ▸ htidSeen)
      refine ⟨List.mem_append_right _ (List.mem_singleton_self tid), ?_, ?_, ?_⟩
      · obtain ⟨u, hu, rfl, hdep⟩ := mem_children.mp hrel.1
        exact ⟨u, hu, rfl, hdep⟩
      · rw [popStep_earliest _ _ _ _ _ hcs, popStep_earliest _ _ _ _ _ hcs]
        rw [if_pos hrel, if_neg]
        intro habs
        exact htidNotChild habs.1
      · intro hx
        exact absurd hx hxNotTopo'
    · rw [if_neg hrel] at hpred
      obtain ⟨hpTopo, hEdge, hEq, hIdx⟩ := H.pred_spec x p hpred
      have hpNotChild : p ∉ children tasks tid :=
        fun h => hNotSeen p h (List.mem_append_left _ hpTopo)
      refine ⟨List.mem_append_left _ hpTopo, hEdge, ?_, ?_⟩
      · rw [popStep_earliest _ _ _ _ _ hcs, popStep_earliest _ _ _ _ _ hcs]
        rw [if_neg hrel, if_neg (fun habs => hpNotChild habs.1)]
        exact hEq
      · intro hx
        rcases List.mem_append.mp hx with hOldX | hXTid
        · rw [idxOf_append_left hpTopo, idxOf_append_left hOldX]
          exact hIdx hOldX
        · have hxEq : x = tid := by simpa using hXTid
          rw [idxOf_append_left hpTopo, hxEq, idxOf_append_right htidNotTopo]
          have h0 : idxOf [tid] tid = 0 := by simp [idxOf]
          rw [h0]
          have := idxOf_lt_length hpTopo
          omega
  · -- pred_none_earliest
    intro x hnone
    rw [popStep_pred _ _ _ _ _ hcs] at hnone
    rw [popStep_earliest _ _ _ _ _ hcs]
    by_cases hrel : x ∈ children tasks tid ∧
        s.earliest x < s.earliest tid + wOf tasks tid
    · rw [if_pos hrel] at hnone
      cases hnone
    · rw [if_neg hrel] at hnone
      rw [if_neg hrel]
      exact H.pred_none_earliest x hnone
  · -- earliest_nonneg
    intro x
    rw [popStep_earliest _ _ _ _ _ hcs]
    by_cases hrel : x ∈ children tasks tid ∧
        s.earliest x < s.earliest tid + wOf tasks tid
    · rw [if_pos hrel]
      have := H.earliest_nonneg x
      omega
    · rw [if_neg hrel]
      exact H.earliest_nonneg x
  · -- edge_relax
    intro t ht p hp hpTopo'
    rw [popStep_topo] at hpTopo'
    have hup : (popStep (children tasks) (wOf tasks) s tid rest).earliest t.id ≥
        s.earliest t.id := by
      rw [popStep_earliest _ _ _ _ _ hcs]
      by_cases hrel : t.id ∈ children tasks tid ∧
          s.earliest t.id < s.earliest tid + wOf tasks tid
      · rw [if_pos hrel]
        omega
      · rw [if_neg hrel]
    rcases List.mem_append.mp hpTopo' with hpOld | hpTid
    · have base := H.edge_relax t ht p hp hpOld
      have hpNotChild : p ∉ children tasks tid :=
        fun h => hNotSeen p h (List.mem_append_left _ hpOld)
      have heqp : (popStep (children tasks) (wOf tasks) s tid rest).earliest p =
          s.earliest p := by
        rw [popStep_earliest _ _ _ _ _ hcs, if_neg (fun habs => hpNotChild habs.1)]
      rw [heqp]
      omega
    · have hpEq : p = tid := by simpa using hpTid
      rw [hpEq] at hp ⊢
      have hmem : t.id ∈ children tasks tid := (mem_children_id hids ht).mpr hp
      have heqp : (popStep (children tasks) (wOf tasks) s tid rest).earliest tid =
          s.earliest tid := by
        rw [popStep_earliest _ _ _ _ _ hcs, if_neg (fun habs => htidNotChild habs.1)]
      rw [heqp]
      rw [popStep_earliest _ _ _ _ _ hcs]
      by_cases hlt : s.earliest t.id < s.earliest tid + wOf tasks tid
      · rw [if_pos ⟨hmem, hlt⟩]
      · rw [if_neg (fun habs => hlt habs.2)]
        omega

/-! ## Running the loop: invariant, queue drain, fuel stability -/

theorem inv_kahnRun (tasks : List Task) (hids : (taskIds tasks).Nodup)
    (hdeps : ∀ t ∈ tasks, t.dependencies.Nodup) :
    ∀ (fuel : Nat) (s : KahnState), Inv tasks s →
      Inv tasks (kahnRun (children tasks) (wOf tasks) fuel s) := by
  intro fuel
  induction fuel with
  | zero => intro s h; exact h
  | succ n ih =>
    intro s h
    cases hq : s.queue with
    | nil => simpa [kahnRun, hq] using h
    | cons tid rest =>
      simp only [kahnRun, hq]
      exact ih _ (inv_popStep tasks hids hdeps hq h)

theorem inv_seen_le (tasks : List Task) {s : KahnState} (H : Inv tasks s) :
    s.topo.length + s.queue.length ≤ tasks.length := by
  have hsub : (s.topo ++ s.queue) ⊆ taskIds tasks := fun x hx => H.seen_sub x hx
  have := (List.subperm_of_subset H.seen_nodup hsub).length_le
  simpa [taskIds] using this

theorem kahnRun_drains (tasks : List Task) (hids : (taskIds tasks).Nodup)
    (hdeps : ∀ t ∈ tasks, t.dependencies.Nodup) :
    ∀ (fuel : Nat) (s : KahnState), Inv tasks s →
      tasks.length ≤ fuel + s.topo.length →
      (kahnRun (children tasks) (wOf tasks) fuel s).queue = [] := by
  intro fuel
  induction fuel with
  | zero =>
    intro s h hlen
    cases hq : s.queue with
    | nil => simpa [kahnRun] using hq
    | cons tid rest =>
      exfalso
      have := inv_seen_le tasks h
      rw [hq] at this
      simp at this
      omega
  | succ n ih =>
    intro s h hlen
    cases hq : s.queue with
    | nil => simp [kahnRun, hq]
    | cons tid rest =>
      simp only [kahnRun, hq]
      refine ih _ (inv_popStep tasks hids hdeps hq h) ?_
      rw [popStep_topo]
      simp
      omega

theorem kahnRun_empty (chil : String → List String) (w : String → Int) :
    ∀ (fuel : Nat) (s : KahnState), s.queue = [] →
      kahnRun chil w fuel s = s := by
  intro fuel s h
  cases fuel with
  | zero => rfl
  | succ n => simp [kahnRun, h]

theorem kahnRun_add (chil : String → List String) (w : String → Int) :
    ∀ (a b : Nat) (s : KahnState),
      kahnRun chil w (a + b) s = kahnRun chil w b (kahnRun chil w a s) := by
  intro a
  induction a with
  | zero =>
    intro b s
    rw [Nat.zero_add]
    rfl
  | succ n ih =>
    intro b s
    cases hq : s.queue with
    | nil =>
      rw [kahnRun_empty chil w (n + 1 + b) s hq, kahnRun_empty chil w (n + 1) s hq,
        kahnRun_empty chil w b s hq]
    | cons tid rest =>
      have hsum : n + 1 + b = (n + b) + 1 := by omega
      rw [hsum]
      simp only [kahnRun, hq]
      exact ih b _

theorem kahnRun_stable (chil : String → List String) (w : String → Int)
    (fuel k : Nat) (s : KahnState)
    (h : (kahnRun chil w fuel s).queue = []) :
    kahnRun chil w (fuel + k) s = kahnRun chil w fuel s := by
  rw [kahnRun_add]
  exact kahnRun_empty chil w k _ h

theorem inv_kahnFinal (tasks : List Task) (hids : (taskIds tasks).Nodup)
    (hdeps : ∀ t ∈ tasks, t.dependencies.Nodup) :
    Inv tasks (kahnFinal tasks) :=
  inv_kahnRun tasks hids hdeps _ _ (inv_init tasks hids)

theorem kahnFinal_queue (tasks : List Task) (hids : (taskIds tasks).Nodup)
    (hdeps : ∀ t ∈ tasks, t.dependencies.Nodup) :
    (kahnFinal tasks).queue = [] := by
  refine kahnRun_drains tasks hids hdeps _ _ (inv_init tasks hids) ?_
  simp [initState]

/-! ## Completeness of the emitted topological order -/

theorem topo_nodup (tasks : List Task) {s : KahnState} (H : Inv tasks s) :
    s.topo.Nodup := (List.nodup_append.mp H.seen_nodup).1

theorem topo_sub_ids (tasks : List Task) {s : KahnState} (H : Inv tasks s) :
    ∀ x ∈ s.topo, x ∈ taskIds tasks :=
  fun x hx => H.seen_sub x (List.mem_append_left _ hx)

theorem complete_mem (tasks : List Task) (_hids : (taskIds tasks).Nodup)
    {s : KahnState} (H : Inv tasks s)
    (hlen : s.topo.length = tasks.length) :
    ∀ x ∈ taskIds tasks, x ∈ s.topo := by
  intro x hx
  by_contra hnx
  have hsub : s.topo ⊆ (taskIds tasks).erase x := by
    intro y hy
    have hyx : y ≠ x := fun he => hnx (he ▸ hy)
    exact (List.mem_erase_of_ne hyx).mpr (topo_sub_ids tasks H y hy)
  have h1 := (List.subperm_of_subset (topo_nodup tasks H) hsub).length_le
  have h2 : ((taskIds tasks).erase x).length = (taskIds tasks).length - 1 :=
    List.length_erase_of_mem hx
  have h3 : (taskIds tasks).length = tasks.length := by simp [taskIds]
  have h4 : 1 ≤ (taskIds tasks).length :=
    List.length_pos.mpr (List.ne_nil_of_mem hx)
  omega

theorem acyclic_complete (tasks : List Task) (hids : (taskIds tasks).Nodup)
    (hdeps : ∀ t ∈ tasks, t.dependencies.Nodup) (hac : Acyclic tasks) :
    (kahnFinal tasks).topo.length = tasks.length := by
  obtain ⟨rank, hrank⟩ := hac
  have H := inv_kahnFinal tasks hids hdeps
  have hq := kahnFinal_queue tasks hids hdeps
  by_contra hne
  -- the topological output misses some task id
  have hlt : (kahnFinal tasks).topo.length ≤ tasks.length := by
    have := inv_seen_le tasks H
    omega
  have hnotall : ¬ (taskIds tasks ⊆ (kahnFinal tasks).topo) := by
    intro hsub
    have := (List.subperm_of_subset hids hsub).length_le
    simp [taskIds] at this
    omega
  have hex : ∃ x ∈ taskIds tasks, x ∉ (kahnFinal tasks).topo := by
    by_contra hc
    push_neg at hc
    exact hnotall hc
  obtain ⟨x0, hx0, hx0n⟩ := hex
  obtain ⟨t0, ht0, ht0id⟩ := mem_taskIds.mp hx0
  -- strong induction on the rank of an unprocessed task
  have key : ∀ (k : Nat), ∀ t ∈ tasks, t.id ∉ (kahnFinal tasks).topo →
      rank t.id < k → False := by
    intro k
    induction k with
    | zero => intro t _ _ h; omega
    | succ n ih =>
      intro t ht htn hrk
      have hiff := H.seen_iff t ht
      rw [hq, List.append_nil] at hiff
      have hnot : ¬ (∀ p ∈ restrictedDeps tasks t, p ∈ (kahnFinal tasks).topo) :=
        fun hall => htn (hiff.mpr hall)
      push_neg at hnot
      obtain ⟨p, hp, hpn⟩ := hnot
      obtain ⟨u, hu, huid⟩ := mem_taskIds.mp (restrictedDeps_subset_ids hp)
      have hru : rank p < rank t.id := hrank t ht p hp
      exact ih u hu (huid ▸ hpn) (by rw [huid]; omega)
  exact key (rank t0.id + 1) t0 ht0 (ht0id ▸ hx0n) (by omega)

theorem chain_measure_lt {r : String → String → Prop} {g : String → Nat}
    (hmono : ∀ p c, r p c → g p < g c) :
    ∀ (m : List String) (x : String), List.Chain r x m → ∀ y ∈ m, g x < g y := by
  intro m
  induction m with
  | nil => intro x _ y hy; cases hy
  | cons a m ih =>
    intro x hch y hy
    rcases List.chain_cons.mp hch with ⟨hxa, hch'⟩
    rcases List.mem_cons.mp hy with rfl | hm
    · exact hmono _ _ hxa
    · exact (hmono _ _ hxa).trans (ih a hch' y hm)

theorem complete_no_cycle (tasks : List Task) (hids : (taskIds tasks).Nodup)
    (hdeps : ∀ t ∈ tasks, t.dependencies.Nodup)
    (hlen : (kahnFinal tasks).topo.length = tasks.length) :
    ¬ HasCycle tasks := by
  rintro ⟨x, l, hch⟩
  have H := inv_kahnFinal tasks hids hdeps
  have hmono : ∀ p c, Edge tasks p c →
      idxOf (kahnFinal tasks).topo p < idxOf (kahnFinal tasks).topo c := by
    rintro p c ⟨t, ht, rfl, hp⟩
    have hct : t.id ∈ (kahnFinal tasks).topo :=
      complete_mem tasks hids H hlen t.id (mem_taskIds.mpr ⟨t, ht, rfl⟩)
    exact (H.topo_edge t ht hct p hp).2
  have hx : x ∈ l ++ [x] := List.mem_append_right _ (List.mem_singleton_self x)
  have := chain_measure_lt hmono (l ++ [x]) x hch x hx
  omega

/-! ## Predecessor existence under positive weights -/

/-- With positive story points, any task with an already-processed
restricted dependency has received a predecessor: relaxation cannot fail
on finish times that exceed a zero earliest start. -/
def PredSome (tasks : List Task) (s : KahnState) : Prop :=
  ∀ t ∈ tasks, (∃ p ∈ restrictedDeps tasks t, p ∈ s.topo) →
    (s.pred t.id).isSome

theorem predSome_popStep (tasks : List Task)
    (hids : (taskIds tasks).Nodup)
    (_hdeps : ∀ t ∈ tasks, t.dependencies.Nodup)
    (hw : ∀ t ∈ tasks, 0 < t.story_points)
    {s : KahnState} {tid : String} {rest : List String}
    (hq : s.queue = tid :: rest) (H : Inv tasks s) (HP : PredSome tasks s) :
    PredSome tasks (popStep (children tasks) (wOf tasks) s tid rest) := by
  have hcs : (children tasks tid).Nodup := children_nodup hids tid
  have htidQ : tid ∈ s.queue := by rw [hq]; exact List.mem_cons_self _ _
  have htidSeen : tid ∈ s.topo ++ s.queue := List.mem_append_right _ htidQ
  have htidIds : tid ∈ taskIds tasks := H.seen_sub tid htidSeen
  have hfinpos : 0 < s.earliest tid + wOf tasks tid := by
    obtain ⟨u, hu, huid⟩ := mem_taskIds.mp htidIds
    have hwu : wOf tasks tid = u.story_points := by rw [← huid]; exact wOf_eq hids hu
    have := hw u hu
    have := H.earliest_nonneg tid
    omega
  rintro t ht ⟨p, hp, hpTopo'⟩
  rw [popStep_topo] at hpTopo'
  rw [popStep_pred _ _ _ _ _ hcs]
  rcases List.mem_append.mp hpTopo' with hpOld | hpTid
  · have hold := HP t ht ⟨p, hp, hpOld⟩
    by_cases hrel : t.id ∈ children tasks tid ∧
        s.earliest t.id < s.earliest tid + wOf tasks tid
    · rw [if_pos hrel]; rfl
    · rw [if_neg hrel]; exact hold
  · have hpEq : p = tid := by simpa using hpTid
    have hmem : t.id ∈ children tasks tid :=
      (mem_children_id hids ht).mpr (hpEq ▸ hp)
    by_cases hlt : s.earliest t.id < s.earliest tid + wOf tasks tid
    · rw [if_pos ⟨hmem, hlt⟩]; rfl
    · rw [if_neg (fun habs => hlt habs.2)]
      cases hpredo : s.pred t.id with
      | some q => rfl
      | none =>
        exfalso
        have := H.pred_none_earliest t.id hpredo
        omega

theorem predSome_kahnRun (tasks : List Task) (hids : (taskIds tasks).Nodup)
    (hdeps : ∀ t ∈ tasks, t.dependencies.Nodup)
    (hw : ∀ t ∈ tasks, 0 < t.story_points) :
    ∀ (fuel : Nat) (s : KahnState), Inv tasks s → PredSome tasks s →
      PredSome tasks (kahnRun (children tasks) (wOf tasks) fuel s) := by
  intro fuel
  induction fuel with
  | zero => intro s _ hp; exact hp
  | succ n ih =>
    intro s h hp
    cases hq : s.queue with
    | nil => simpa [kahnRun, hq] using hp
    | cons tid rest =>
      simp only [kahnRun, hq]
      exact ih _ (inv_popStep tasks hids hdeps hq h)
        (predSome_popStep tasks hids hdeps hw hq h hp)

theorem predSome_kahnFinal (tasks : List Task) (hids : (taskIds tasks).Nodup)
    (hdeps : ∀ t ∈ tasks, t.dependencies.Nodup)
    (hw : ∀ t ∈ tasks, 0 < t.story_points) :
    PredSome tasks (kahnFinal tasks) := by
  refine predSome_kahnRun tasks hids hdeps hw _ _ (inv_init tasks hids) ?_
  rintro t ht ⟨p, _, hpt⟩
  simp [initState] at hpt

/-! ## The predecessor trace-back -/

/-- What the trace-back walk from `x` produces: a duplicate-free
predecessor chain through the topological order, ending at `x`, starting
at a predecessor-free task, whose total weight telescopes to the finish
time of `x`. -/
structure TraceSpec (tasks : List Task) (s : KahnState) (x : String)
    (l : List String) : Prop where
  ne : l ≠ []
  last : l.getLast? = some x
  mem : ∀ y ∈ l, y ∈ s.topo ∧ idxOf s.topo y ≤ idxOf s.topo x
  nodup : l.Nodup
  len : l.length ≤ idxOf s.topo x + 1
  head_none : ∃ h t, l = h :: t ∧ s.pred h = none
  chain : List.Chain' (fun a b => s.pred b = some a) l
  wsum : (l.map (wOf tasks)).sum = s.earliest x + wOf tasks x

theorem traceBack_spec (tasks : List Task) {s : KahnState} (H : Inv tasks s) :
    ∀ (m : Nat) (x : String), x ∈ s.topo → idxOf s.topo x < m →
      ∀ (n : Nat), idxOf s.topo x < n →
        TraceSpec tasks s x (traceBack s.pred n x) ∧
          (∀ k, traceBack s.pred (n + k) x = traceBack s.pred n x) := by
  intro m
  induction m with
  | zero => intro x _ h; omega
  | succ m ih =>
    intro x hx hxm n hxn
    cases n with
    | zero => omega
    | succ n' =>
      cases hpred : s.pred x with
      | none =>
        have hunfold : traceBack s.pred (n' + 1) x = [x] := by
          simp [traceBack, hpred]
        rw [hunfold]
        have hz : s.earliest x = 0 := H.pred_none_earliest x hpred
        refine ⟨⟨by simp, by simp, ?_, by simp, by simp, ⟨x, [], rfl, hpred⟩,
          by simp, by simp [hz]⟩, ?_⟩
        · intro y hy
          have hyx : y = x := by simpa using hy
          subst hyx
          exact ⟨hx, le_refl _⟩
        · intro k
          have h2 : n' + 1 + k = (n' + k) + 1 := by omega
          rw [h2]
          simp [traceBack, hpred]
      | some p =>
        obtain ⟨hpTopo, _, hEq, hIdx⟩ := H.pred_spec x p hpred
        have hplt : idxOf s.topo p < idxOf s.topo x := hIdx hx
        have hpm : idxOf s.topo p < m := by omega
        have hpn : idxOf s.topo p < n' := by omega
        obtain ⟨S, hstab⟩ := ih p hpTopo hpm n' hpn
        have hunfold : traceBack s.pred (n' + 1) x =
            traceBack s.pred n' p ++ [x] := by
          simp [traceBack, hpred]
        rw [hunfold]
        refine ⟨⟨by simp, by simp, ?_, ?_, ?_, ?_, ?_, ?_⟩, ?_⟩
        · intro y hy
          rcases List.mem_append.mp hy with h | h
          · obtain ⟨hyt, hyle⟩ := S.mem y h
            exact ⟨hyt, by omega⟩
          · have hyx : y = x := by simpa using h
            subst hyx
            exact ⟨hx, le_refl _⟩
        · refine List.nodup_append.mpr ⟨S.nodup, by simp, ?_⟩
          intro a ha hax
          have hax' : a = x := by simpa using hax
          have hle := (S.mem a ha).2
          rw [hax'] at hle
          omega
        · have hl := S.len
          simp only [List.length_append, List.length_singleton]
          omega
        · obtain ⟨h, t, hht, hnone⟩ := S.head_none
          exact ⟨h, t ++ [x], by rw [hht]; simp, hnone⟩
        · refine List.chain'_append.mpr ⟨S.chain, by simp, ?_⟩
          intro a ha b hb
          have ha2 : (traceBack s.pred n' p).getLast? = some a := ha
          rw [S.last] at ha2
          have hb2 : x = b := by simpa using hb
          cases ha2
          rw [← hb2]
          exact hpred
        · rw [List.map_append, List.sum_append, S.wsum, hEq]
          simp
        · intro k
          have hn : n' + 1 + k = (n' + k) + 1 := by omega
          rw [hn]
          simp only [traceBack, hpred]
          rw [hstab k]

/-! ## Python max with key: first maximal element -/

theorem maxByFirst_foldl_spec (f : String → Int) :
    ∀ (xs : List String) (b : String),
      xs.foldl (fun b y => if f b < f y then y else b) b ∈ b :: xs ∧
      f b ≤ f (xs.foldl (fun b y => if f b < f y then y else b) b) ∧
      ∀ y ∈ xs, f y ≤ f (xs.foldl (fun b y => if f b < f y then y else b) b) := by
  intro xs
  induction xs with
  | nil => intro b; exact ⟨List.mem_cons_self _ _, le_refl _, by simp⟩
  | cons a xs ih =>
    intro b
    simp only [List.foldl_cons]
    by_cases hab : f b < f a
    · rw [if_pos hab]
      obtain ⟨hmem, hle, hall⟩ := ih a
      refine ⟨List.mem_cons_of_mem _ hmem, by omega, ?_⟩
      intro y hy
      rcases List.mem_cons.mp hy with rfl | h
      · exact hle
      · exact hall y h
    · rw [if_neg hab]
      obtain ⟨hmem, hle, hall⟩ := ih b
      refine ⟨?_, hle, ?_⟩
      · rcases List.mem_cons.mp hmem with h | h
        · rw [h]
          exact List.mem_cons_self _ _
        · exact List.mem_cons_of_mem _ (List.mem_cons_of_mem _ h)
      · intro y hy
        rcases List.mem_cons.mp hy with rfl | h
        · omega
        · exact hall y h

theorem maxByFirst_mem (f : String → Int) {xs : List String} (h : xs ≠ []) :
    maxByFirst f xs ∈ xs := by
  cases xs with
  | nil => exact absurd rfl h
  | cons a xs =>
    simp only [maxByFirst]
    exact (maxByFirst_foldl_spec f xs a).1

theorem maxByFirst_le (f : String → Int) {xs : List String} (h : xs ≠ [])
    {y : String} (hy : y ∈ xs) : f y ≤ f (maxByFirst f xs) := by
  cases xs with
  | nil => exact absurd rfl h
  | cons a xs =>
    simp only [maxByFirst]
    obtain ⟨_, hle, hall⟩ := maxByFirst_foldl_spec f xs a
    rcases List.mem_cons.mp hy with rfl | hmem
    · exact hle
    · exact hall y hmem

/-- When a single element strictly dominates all others, Python max
returns it regardless of position. -/
theorem maxByFirst_eq_of_unique (f : String → Int) {m : String} :
    ∀ (xs : List String) (b : String),
      (∀ y ∈ xs, y = m ∨ f y < f m) →
      (b = m ∨ (f b < f m ∧ m ∈ xs)) →
      xs.foldl (fun b y => if f b < f y then y else b) b = m := by
  intro xs
  induction xs with
  | nil =>
    intro b _ hb
    rcases hb with hbeq | ⟨_, hmem⟩
    · exact hbeq
    · cases hmem
  | cons a xs ih =>
    intro b hall hb
    simp only [List.foldl_cons]
    have hall' : ∀ y ∈ xs, y = m ∨ f y < f m :=
      fun y hy => hall y (List.mem_cons_of_mem _ hy)
    rcases hb with hbeq | ⟨hblt, hmem⟩
    · have hnot : ¬ f b < f a := by
        rcases hall a (List.mem_cons_self _ _) with haeq | halt
        · rw [haeq, hbeq]; omega
        · rw [hbeq]; omega
      rw [if_neg hnot]
      exact ih b hall' (Or.inl hbeq)
    · rcases List.mem_cons.mp hmem with hma | hmem'
      · rw [← hma, if_pos hblt]
        exact ih m hall' (Or.inl rfl)
      · rcases hall a (List.mem_cons_self _ _) with haeq | halt
        · rw [haeq, if_pos (show f b < f m from hblt)]
          exact ih m hall' (Or.inl rfl)
        · by_cases hba : f b < f a
          · rw [if_pos hba]
            exact ih a hall' (Or.inr ⟨halt, hmem'⟩)
          · rw [if_neg hba]
            exact ih b hall' (Or.inr ⟨hblt, hmem'⟩)

/-! ## Assembling `criticalPath` -/

/-- The id the trace-back starts from: the first task in topological order
with maximal finish time (line 288). -/
def endIdOf (tasks : List Task) : String :=
  maxByFirst (fun x => (kahnFinal tasks).earliest x + wOf tasks x)
    (kahnFinal tasks).topo

/-- The ids on the returned critical path (lines 289-294). -/
def pathIds (tasks : List Task) : List String :=
  traceBack (kahnFinal tasks).pred tasks.length (endIdOf tasks)

theorem criticalPath_eq_fallback {tasks : List Task} (hne : tasks ≠ [])
    (hlen : (kahnFinal tasks).topo.length ≠ tasks.length) :
    criticalPath tasks = fallbackSort tasks := by
  rw [criticalPath, criticalPathF, if_neg hne]
  simp only [kahnFinal] at hlen
  rw [if_pos hlen]

theorem criticalPath_eq_traceBack {tasks : List Task} (hne : tasks ≠ [])
    (hlen : (kahnFinal tasks).topo.length = tasks.length) :
    criticalPath tasks = (pathIds tasks).filterMap (taskOf tasks) := by
  rw [criticalPath, criticalPathF, if_neg hne]
  simp only [kahnFinal] at hlen
  rw [if_neg (by rw [hlen]; exact fun h => h rfl)]
  rfl

theorem filterMap_taskOf (tasks : List Task) (hids : (taskIds tasks).Nodup) :
    ∀ (l : List String), (∀ x ∈ l, x ∈ taskIds tasks) →
      ((l.filterMap (taskOf tasks)).map Task.id = l ∧
        (∀ u ∈ l.filterMap (taskOf tasks), u ∈ tasks) ∧
        (l.filterMap (taskOf tasks)).map Task.story_points = l.map (wOf tasks)) := by
  intro l
  induction l with
  | nil => intro _; exact ⟨rfl, by simp, rfl⟩
  | cons x l ih =>
    intro hsub
    obtain ⟨t, ht, hid⟩ := mem_taskIds.mp (hsub x (List.mem_cons_self _ _))
    have hfind : taskOf tasks x = some t := hid ▸ taskOf_self hids ht
    obtain ⟨ih1, ih2, ih3⟩ := ih (fun y hy => hsub y (List.mem_cons_of_mem _ hy))
    rw [List.filterMap_cons, hfind]
    refine ⟨?_, ?_, ?_⟩
    · simp [ih1, hid]
    · intro u hu
      rcases List.mem_cons.mp hu with rfl | hu'
      · exact ht
      · exact ih2 u hu'
    · have hwt : t.story_points = wOf tasks x := by
        rw [← hid, wOf_eq hids ht]
      simp [ih3, hwt]

/-! ## Declarative dependency chains -/

/-- A dependency chain inside the input set: a nonempty sequence of task
ids, consecutive elements joined by restricted edges. -/
def ChainIds (tasks : List Task) (l : List String) : Prop :=
  l ≠ [] ∧ (∀ x ∈ l, x ∈ taskIds tasks) ∧ List.Chain' (Edge tasks) l

/-- Cumulative story-point weight of a chain of ids. -/
def chainWeight (tasks : List Task) (l : List String) : Int :=
  (l.map (wOf tasks)).sum

/-- Total story points of a task sequence. -/
def sumW (l : List Task) : Int := (l.map Task.story_points).sum

/-- In a completed run, every chain weight is dominated by the finish
time of its last element (the longest-path relaxation bound). -/
theorem chain_le (tasks : List Task) {s : KahnState} (H : Inv tasks s)
    (hcompl : ∀ x ∈ taskIds tasks, x ∈ s.topo) :
    ∀ (l : List String) (x z : String), List.Chain' (Edge tasks) (x :: l) →
      x ∈ taskIds tasks → (x :: l).getLast? = some z →
      s.earliest x + ((x :: l).map (wOf tasks)).sum ≤
        s.earliest z + wOf tasks z := by
  intro l
  induction l with
  | nil =>
    intro x z _ _ hlast
    have hxz : x = z := by simpa using hlast
    subst hxz
    simp
  | cons y l ih =>
    intro x z hch hx hlast
    have hedge : Edge tasks x y := (List.chain'_cons.mp hch).1
    have hch' : List.Chain' (Edge tasks) (y :: l) := (List.chain'_cons.mp hch).2
    have hy : y ∈ taskIds tasks := (edge_mem_ids hedge).2
    have hlast' : (y :: l).getLast? = some z := by
      rw [← hlast]
      exact List.getLast?_cons_cons.symm
    have hstep : s.earliest x + wOf tasks x ≤ s.earliest y := by
      obtain ⟨t, ht, hid, hdep⟩ := hedge
      have := H.edge_relax t ht x hdep (hcompl x (edge_mem_ids ⟨t, ht, hid, hdep⟩).1)
      rw [hid] at this
      exact this
    have := ih y z hch' hy hlast'
    simp only [List.map_cons, List.sum_cons] at *
    omega

theorem topo_ne_nil {tasks : List Task} (hne : tasks ≠ [])
    (hlen : (kahnFinal tasks).topo.length = tasks.length) :
    (kahnFinal tasks).topo ≠ [] := by
  intro habs
  rw [habs] at hlen
  exact hne (List.length_eq_zero.mp hlen.symm)

/-- The trace-back specification instantiated at the selected end id. -/
theorem pathIds_spec (tasks : List Task) (hids : (taskIds tasks).Nodup)
    (hdeps : ∀ t ∈ tasks, t.dependencies.Nodup) (hne : tasks ≠ [])
    (hlen : (kahnFinal tasks).topo.length = tasks.length) :
    TraceSpec tasks (kahnFinal tasks) (endIdOf tasks) (pathIds tasks) ∧
      ∀ k, traceBack (kahnFinal tasks).pred (tasks.length + k) (endIdOf tasks) =
        pathIds tasks := by
  have H := inv_kahnFinal tasks hids hdeps
  have hmem : endIdOf tasks ∈ (kahnFinal tasks).topo :=
    maxByFirst_mem _ (topo_ne_nil hne hlen)
  have hidx : idxOf (kahnFinal tasks).topo (endIdOf tasks) < tasks.length := by
    have := idxOf_lt_length hmem
    omega
  exact traceBack_spec tasks H (idxOf (kahnFinal tasks).topo (endIdOf tasks) + 1)
    (endIdOf tasks) hmem (by omega) tasks.length hidx

/-! ## Fuel-independence of the embedded loops -/

theorem criticalPathF_fallback {tasks : List Task} (hne : tasks ≠ [])
    (hlen : (kahnFinal tasks).topo.length ≠ tasks.length) (fuel : Nat)
    (hrun : kahnRun (children tasks) (wOf tasks) fuel (initState tasks) =
      kahnFinal tasks) :
    criticalPathF tasks fuel = fallbackSort tasks := by
  rw [criticalPathF, if_neg hne]
  simp only [hrun]
  rw [if_pos hlen]

theorem criticalPathF_traceBack {tasks : List Task} (hne : tasks ≠ [])
    (hlen : (kahnFinal tasks).topo.length = tasks.length) (fuel : Nat)
    (hrun : kahnRun (children tasks) (wOf tasks) fuel (initState tasks) =
      kahnFinal tasks) :
    criticalPathF tasks fuel =
      (traceBack (kahnFinal tasks).pred fuel (endIdOf tasks)).filterMap
        (taskOf tasks) := by
  rw [criticalPathF, if_neg hne]
  simp only [hrun]
  rw [if_neg (by rw [hlen]; exact fun h => h rfl)]
  rfl

/-! ## Claim theorems -/

/-- C1: for every acyclic dependency graph over a project's tasks (unique
ids and deduplicated dependency rows as the store guarantees, all
story-point weights positive), `get_critical_path` returns a sequence
whose length is at most the task count, whose first element has no
prerequisite inside the input set, and whose total story-point weight is
the maximum achievable finish time: the greatest cumulative weight of any
dependency chain through the input set. -/
theorem c1_criticalPath_acyclic_correct (tasks : List Task)
    (hids : (taskIds tasks).Nodup)
    (hdeps : ∀ t ∈ tasks, t.dependencies.Nodup)
    (hw : ∀ t ∈ tasks, 0 < t.story_points)
    (hne : tasks ≠ [])
    (hac : Acyclic tasks) :
    (criticalPath tasks).length ≤ tasks.length ∧
    (∃ h rest, criticalPath tasks = h :: rest ∧
      ∀ d ∈ h.dependencies, d ∉ taskIds tasks) ∧
    IsGreatest {w : Int | ∃ l, ChainIds tasks l ∧ chainWeight tasks l = w}
      (sumW (criticalPath tasks)) := by
  have hlen := acyclic_complete tasks hids hdeps hac
  have H := inv_kahnFinal tasks hids hdeps
  have HP := predSome_kahnFinal tasks hids hdeps hw
  have hcompl := complete_mem tasks hids H hlen
  have hcp := criticalPath_eq_traceBack hne hlen
  obtain ⟨S, _⟩ := pathIds_spec tasks hids hdeps hne hlen
  have hsub : ∀ x ∈ pathIds tasks, x ∈ taskIds tasks :=
    fun x hx => topo_sub_ids tasks H x (S.mem x hx).1
  obtain ⟨hmap, hmemT, hwmap⟩ := filterMap_taskOf tasks hids (pathIds tasks) hsub
  have hlenEq : (criticalPath tasks).length = (pathIds tasks).length := by
    have hml := congrArg List.length hmap
    rw [List.length_map] at hml
    rw [hcp]
    exact hml
  have hsumEq : sumW (criticalPath tasks) = chainWeight tasks (pathIds tasks) := by
    rw [hcp, sumW, chainWeight, hwmap]
  have htne := topo_ne_nil hne hlen
  refine ⟨?_, ?_, ?_, ?_⟩
  · -- length bound
    have hidx := idxOf_lt_length (maxByFirst_mem
      (fun x => (kahnFinal tasks).earliest x + wOf tasks x) htne)
    have := S.len
    rw [hlenEq]
    simp only [endIdOf] at *
    omega
  · -- first element has no restricted prerequisite
    obtain ⟨hid, t0, hpath, hnone⟩ := S.head_none
    obtain ⟨u, hu, huid⟩ := mem_taskIds.mp
      (hsub hid (by rw [hpath]; exact List.mem_cons_self _ _))
    have hfind : taskOf tasks hid = some u := huid ▸ taskOf_self hids hu
    refine ⟨u, t0.filterMap (taskOf tasks), ?_, ?_⟩
    · rw [hcp, hpath, List.filterMap_cons, hfind]
    · intro d hd hdids
      have hrd : d ∈ restrictedDeps tasks u := mem_restrictedDeps.mpr ⟨hd, hdids⟩
      have hsome := HP u hu ⟨d, hrd, hcompl d hdids⟩
      rw [huid, hnone] at hsome
      cases hsome
  · -- the returned weight is the weight of a real chain
    refine ⟨pathIds tasks, ⟨S.ne, hsub, ?_⟩, hsumEq.symm⟩
    exact S.chain.imp (fun a b hab => (H.pred_spec b a hab).2.1)
  · -- and it dominates every chain weight
    rintro w ⟨l, ⟨hlne, hlsub, hlch⟩, rfl⟩
    cases l with
    | nil => exact absurd rfl hlne
    | cons x l' =>
      cases hzl : (x :: l').getLast? with
      | none => simp at hzl
      | some z =>
        have hzmem : z ∈ x :: l' := by
          have := List.mem_of_mem_getLast? (l := x :: l') (a := z)
          exact this (by rw [hzl]; rfl)
        have hzids : z ∈ taskIds tasks := hlsub z hzmem
        have hztopo : z ∈ (kahnFinal tasks).topo := hcompl z hzids
        have hbound := chain_le tasks H hcompl l' x z hlch
          (hlsub x (List.mem_cons_self _ _)) hzl
        have hmax := maxByFirst_le
          (fun y => (kahnFinal tasks).earliest y + wOf tasks y) htne hztopo
        have hnn := H.earliest_nonneg x
        have hws := S.wsum
        simp only [endIdOf] at hws hmax
        rw [hsumEq]
        simp only [chainWeight]
        rw [hws]
        omega

/-- Concrete two-task chain on which the C1 hypotheses all hold. -/
def c1demo : List Task :=
  [{ id := "a", project_id := "p", title := "A", assignee := "x",
     priority := 1, story_points := 2 },
   { id := "b", project_id := "p", title := "B", assignee := "x",
     priority := 1, story_points := 3, dependencies := ["a"] }]

theorem c1_witness :
    (criticalPath c1demo).length ≤ c1demo.length ∧
    (∃ h rest, criticalPath c1demo = h :: rest ∧
      ∀ d ∈ h.dependencies, d ∉ taskIds c1demo) ∧
    IsGreatest {w : Int | ∃ l, ChainIds c1demo l ∧ chainWeight c1demo l = w}
      (sumW (criticalPath c1demo)) :=
  c1_criticalPath_acyclic_correct c1demo (by decide) (by decide) (by decide)
    (by decide) ⟨fun x => if x = "b" then 1 else 0, by decide⟩

/-! ## Stability of the priority fallback sort -/

instance : IsTotal Task (fun a b => a.priority ≤ b.priority) :=
  ⟨fun _ _ => le_total _ _⟩

instance : IsTrans Task (fun a b => a.priority ≤ b.priority) :=
  ⟨fun _ _ _ => le_trans⟩

theorem orderedInsert_filter_eq (a : Task) (l : List Task) (k : Int)
    (ha : a.priority = k) :
    (List.orderedInsert (fun a b => a.priority ≤ b.priority) a l).filter
        (fun t => decide (t.priority = k)) =
      a :: l.filter (fun t => decide (t.priority = k)) := by
  induction l with
  | nil => simp [List.orderedInsert, ha]
  | cons b l ih =>
    rw [List.orderedInsert]
    by_cases hr : a.priority ≤ b.priority
    · rw [if_pos hr]
      simp [List.filter_cons, ha]
    · rw [if_neg hr]
      have hbk : ¬ b.priority = k := by omega
      simp [List.filter_cons, hbk, ih]

theorem orderedInsert_filter_ne (a : Task) (l : List Task) (k : Int)
    (ha : ¬ a.priority = k) :
    (List.orderedInsert (fun a b => a.priority ≤ b.priority) a l).filter
        (fun t => decide (t.priority = k)) =
      l.filter (fun t => decide (t.priority = k)) := by
  induction l with
  | nil => simp [List.orderedInsert, ha]
  | cons b l ih =>
    rw [List.orderedInsert]
    by_cases hr : a.priority ≤ b.priority
    · rw [if_pos hr]
      simp [List.filter_cons, ha]
    · rw [if_neg hr]
      by_cases hbk : b.priority = k <;> simp [List.filter_cons, hbk, ih]

theorem fallbackSort_filter (tasks : List Task) (k : Int) :
    (fallbackSort tasks).filter (fun t => decide (t.priority = k)) =
      tasks.filter (fun t => decide (t.priority = k)) := by
  rw [fallbackSort]
  induction tasks with
  | nil => rfl
  | cons a l ih =>
    rw [List.insertionSort]
    by_cases ha : a.priority = k
    · rw [orderedInsert_filter_eq a _ k ha, ih]
      simp [List.filter_cons, ha]
    · rw [orderedInsert_filter_ne a _ k ha, ih]
      simp [List.filter_cons, ha]

theorem hasCycle_ne_nil {tasks : List Task} (hc : HasCycle tasks) :
    tasks ≠ [] := by
  obtain ⟨x, l, hch⟩ := hc
  cases hl : l ++ [x] with
  | nil => simp at hl
  | cons b m =>
    rw [hl] at hch
    obtain ⟨t, ht, _⟩ := (List.chain_cons.mp hch).1
    exact List.ne_nil_of_mem ht

theorem hasCycle_incomplete (tasks : List Task) (hids : (taskIds tasks).Nodup)
    (hdeps : ∀ t ∈ tasks, t.dependencies.Nodup) (hc : HasCycle tasks) :
    (kahnFinal tasks).topo.length ≠ tasks.length := by
  intro hlen
  exact complete_no_cycle tasks hids hdeps hlen hc

/-- C2: when the restricted dependency edges contain a cycle,
`get_critical_path` falls back to all input tasks sorted by ascending
priority with ties in original input order (a stable sort), ignoring the
dependency structure; being a total function of the snapshot, it raises
no error.  Stability is captured by the filter clause: each equal-priority
group appears exactly in input order. -/
theorem c2_cycle_fallback (tasks : List Task)
    (hids : (taskIds tasks).Nodup)
    (hdeps : ∀ t ∈ tasks, t.dependencies.Nodup)
    (hc : HasCycle tasks) :
    (criticalPath tasks).Perm tasks ∧
    (criticalPath tasks).Sorted (fun a b => a.priority ≤ b.priority) ∧
    ∀ k : Int, (criticalPath tasks).filter (fun t => decide (t.priority = k)) =
      tasks.filter (fun t => decide (t.priority = k)) := by
  have hne := hasCycle_ne_nil hc
  have hcp := criticalPath_eq_fallback hne (hasCycle_incomplete tasks hids hdeps hc)
  rw [hcp]
  exact ⟨List.perm_insertionSort _ tasks,
    List.sorted_insertionSort _ tasks,
    fun k => fallbackSort_filter tasks k⟩

/-- Two tasks depending on each other, plus an independent third task. -/
def c2demo : List Task :=
  [{ id := "a", project_id := "p", title := "A", assignee := "x",
     priority := 2, story_points := 1, dependencies := ["b"] },
   { id := "b", project_id := "p", title := "B", assignee := "x",
     priority := 1, story_points := 1, dependencies := ["a"] },
   { id := "c", project_id := "p", title := "C", assignee := "x",
     priority := 1, story_points := 1 }]

theorem c2_witness :
    (criticalPath c2demo).Perm c2demo ∧
    (criticalPath c2demo).Sorted (fun a b => a.priority ≤ b.priority) ∧
    ∀ k : Int, (criticalPath c2demo).filter (fun t => decide (t.priority = k)) =
      c2demo.filter (fun t => decide (t.priority = k)) :=
  c2_cycle_fallback c2demo (by decide) (by decide)
    ⟨"a", ["b"], List.Chain.cons (by decide) (List.Chain.cons (by decide) List.Chain.nil)⟩

/-- C3: `get_critical_path` terminates on every input task set.  In the
embedding both `while` loops carry fuel `tasks.length`; the theorem shows
any extra fuel changes nothing (the loops have genuinely finished), on
arbitrary inputs including cyclic ones, and that a task depending on
itself (a 1-node cycle) triggers the cycle fallback rather than an
infinite loop. -/
theorem c3_terminates (tasks : List Task)
    (hids : (taskIds tasks).Nodup)
    (hdeps : ∀ t ∈ tasks, t.dependencies.Nodup) :
    (∀ k : Nat, criticalPathF tasks (tasks.length + k) = criticalPath tasks) ∧
    (∀ t ∈ tasks, t.id ∈ t.dependencies →
      criticalPath tasks = fallbackSort tasks) := by
  constructor
  · intro k
    by_cases hnil : tasks = []
    · subst hnil
      simp [criticalPathF, criticalPath]
    · have hq : (kahnFinal tasks).queue = [] := kahnFinal_queue tasks hids hdeps
      have hrun : kahnRun (children tasks) (wOf tasks) (tasks.length + k)
          (initState tasks) = kahnFinal tasks :=
        kahnRun_stable (children tasks) (wOf tasks) tasks.length k (initState tasks) hq
      by_cases hlen : (kahnFinal tasks).topo.length = tasks.length
      · obtain ⟨_, hstab⟩ := pathIds_spec tasks hids hdeps hnil hlen
        rw [criticalPathF_traceBack hnil hlen (tasks.length + k) hrun,
          criticalPath_eq_traceBack hnil hlen, hstab k]
      · rw [criticalPathF_fallback hnil hlen (tasks.length + k) hrun,
          criticalPath_eq_fallback hnil hlen]
  · intro t ht hself
    have hc : HasCycle tasks :=
      ⟨t.id, [], List.Chain.cons
        ⟨t, ht, rfl, mem_restrictedDeps.mpr ⟨hself, mem_taskIds.mpr ⟨t, ht, rfl⟩⟩⟩
        List.Chain.nil⟩
    exact criticalPath_eq_fallback (List.ne_nil_of_mem ht)
      (hasCycle_incomplete tasks hids hdeps hc)

/-- A task that depends on itself next to an ordinary task. -/
def c3demo : List Task :=
  [{ id := "a", project_id := "p", title := "A", assignee := "x",
     priority := 2, story_points := 1, dependencies := ["a"] },
   { id := "b", project_id := "p", title := "B", assignee := "x",
     priority := 1, story_points := 1 }]

theorem c3_witness :
    (∀ k : Nat, criticalPathF c3demo (c3demo.length + k) = criticalPath c3demo) ∧
    (∀ t ∈ c3demo, t.id ∈ t.dependencies →
      criticalPath c3demo = fallbackSort c3demo) :=
  c3_terminates c3demo (by decide) (by decide)

/-! ## The two cycle notions agree

`Acyclic` (a rank function increasing along edges) and `HasCycle` (an
explicit edge cycle) are exact complements on finite task sets, so the
hypotheses of the acyclic-case and cycle-case claims cover every input. -/

/-- The first still-unprocessed restricted dependency of the task with
id `x` (used to walk backwards through an incomplete run). -/
def parentPick (tasks : List Task) (topo : List String) (x : String) : String :=
  match taskOf tasks x with
  | some t => ((restrictedDeps tasks t).filter (fun p => decide (p ∉ topo))).headD ""
  | none => ""

theorem headD_mem {l : List String} (h : l ≠ []) (d : String) : l.headD d ∈ l := by
  cases l with
  | nil => exact absurd rfl h
  | cons a l => exact List.mem_cons_self _ _

theorem parentPick_spec (tasks : List Task) (hids : (taskIds tasks).Nodup)
    (hdeps : ∀ t ∈ tasks, t.dependencies.Nodup) :
    ∀ x ∈ taskIds tasks, x ∉ (kahnFinal tasks).topo →
      (parentPick tasks (kahnFinal tasks).topo x ∈ taskIds tasks ∧
        parentPick tasks (kahnFinal tasks).topo x ∉ (kahnFinal tasks).topo ∧
        Edge tasks (parentPick tasks (kahnFinal tasks).topo x) x) := by
  intro x hx hnx
  have H := inv_kahnFinal tasks hids hdeps
  have hq := kahnFinal_queue tasks hids hdeps
  obtain ⟨t, ht, htid⟩ := mem_taskIds.mp hx
  have hfind : taskOf tasks x = some t := htid ▸ taskOf_self hids ht
  have hiff := H.seen_iff t ht
  rw [hq, List.append_nil, htid] at hiff
  have hnsub : ¬ ∀ p ∈ restrictedDeps tasks t, p ∈ (kahnFinal tasks).topo :=
    fun hall => hnx (hiff.mpr hall)
  push_neg at hnsub
  obtain ⟨p0, hp0, hp0n⟩ := hnsub
  have hne : (restrictedDeps tasks t).filter
      (fun p => decide (p ∉ (kahnFinal tasks).topo)) ≠ [] :=
    List.ne_nil_of_mem (List.mem_filter.mpr ⟨hp0, by simp [hp0n]⟩)
  have hpmem := headD_mem hne ""
  have hpf := List.mem_filter.mp hpmem
  have hpick : parentPick tasks (kahnFinal tasks).topo x =
      ((restrictedDeps tasks t).filter
        (fun p => decide (p ∉ (kahnFinal tasks).topo))).headD "" := by
    rw [parentPick, hfind]
  rw [hpick]
  refine ⟨restrictedDeps_subset_ids hpf.1, by simpa using hpf.2, ?_⟩
  exact ⟨t, ht, htid, hpf.1⟩

/-- The walk `[f (k+m-1), …, f (k+1), f k]` through an iterated parent
choice. -/
def walkList (f : Nat → String) : Nat → Nat → List String
  | 0, _ => []
  | m + 1, k => f (k + m) :: walkList f m k

theorem walkList_chain {tasks : List Task} {f : Nat → String}
    (hEdge : ∀ k, Edge tasks (f (k + 1)) (f k)) :
    ∀ (m k : Nat), List.Chain (Edge tasks) (f (k + m)) (walkList f m k) := by
  intro m
  induction m with
  | zero => intro k; exact List.Chain.nil
  | succ m ih =>
    intro k
    rw [walkList]
    refine List.chain_cons.mpr ⟨?_, ih k⟩
    have : k + (m + 1) = (k + m) + 1 := by omega
    rw [this]
    exact hEdge (k + m)

theorem walkList_append (f : Nat → String) :
    ∀ (m k : Nat), walkList f (m + 1) k = walkList f m (k + 1) ++ [f k] := by
  intro m
  induction m with
  | zero => intro k; rfl
  | succ m ih =>
    intro k
    rw [walkList, ih k]
    have : k + (m + 1) = (k + 1) + m := by omega
    rw [this]
    rfl

theorem no_cycle_complete (tasks : List Task) (hids : (taskIds tasks).Nodup)
    (hdeps : ∀ t ∈ tasks, t.dependencies.Nodup) (hnc : ¬ HasCycle tasks) :
    (kahnFinal tasks).topo.length = tasks.length := by
  by_contra hne
  have H := inv_kahnFinal tasks hids hdeps
  -- some id never gets processed
  have hlt : (kahnFinal tasks).topo.length ≤ tasks.length := by
    have := inv_seen_le tasks H
    omega
  have hex : ∃ x ∈ taskIds tasks, x ∉ (kahnFinal tasks).topo := by
    by_contra hc
    push_neg at hc
    have := (List.subperm_of_subset hids hc).length_le
    simp [taskIds] at this
    omega
  obtain ⟨x0, hx0, hx0n⟩ := hex
  -- iterate the parent choice
  set g := parentPick tasks (kahnFinal tasks).topo with hg
  set f : Nat → String := fun k => g^[k] x0 with hf
  have hInv : ∀ k, f k ∈ taskIds tasks ∧ f k ∉ (kahnFinal tasks).topo := by
    intro k
    induction k with
    | zero => exact ⟨hx0, hx0n⟩
    | succ k ih =>
      have hstep : f (k + 1) = g (f k) := by
        rw [hf]
        exact Function.iterate_succ_apply' g k x0
      obtain ⟨h1, h2, _⟩ := parentPick_spec tasks hids hdeps (f k) ih.1 ih.2
      rw [hstep]
      exact ⟨h1, h2⟩
  have hEdge : ∀ k, Edge tasks (f (k + 1)) (f k) := by
    intro k
    have hstep : f (k + 1) = g (f k) := by
      rw [hf]
      exact Function.iterate_succ_apply' g k x0
    rw [hstep]
    exact (parentPick_spec tasks hids hdeps (f k) (hInv k).1 (hInv k).2).2.2
  -- pigeonhole: tasks.length + 1 walk values inside the id set
  have hcard : ((taskIds tasks).toFinset).card < (Finset.univ : Finset (Fin (tasks.length + 1))).card := by
    have h1 := (taskIds tasks).toFinset_card_le
    simp only [Finset.card_univ, Fintype.card_fin]
    have h2 : (taskIds tasks).length = tasks.length := by simp [taskIds]
    omega
  obtain ⟨i, _, j, _, hij, hfij⟩ :=
    Finset.exists_ne_map_eq_of_card_lt_of_maps_to hcard
      (f := fun i : Fin (tasks.length + 1) => f i.val)
      (fun i _ => List.mem_toFinset.mpr (hInv i.val).1)
  -- order the duplicate pair
  have hkey : ∀ (u v : Nat), u < v → f u = f v → False := by
    intro u v huv hfe
    obtain ⟨m, hm⟩ : ∃ m, v = u + (m + 1) := ⟨v - u - 1, by omega⟩
    apply hnc
    refine ⟨f u, walkList f m (u + 1), ?_⟩
    have hch := walkList_chain hEdge (m + 1) u
    rw [walkList_append] at hch
    rw [show u + (m + 1) = v from by omega, ← hfe] at hch
    exact hch
  rcases Nat.lt_or_ge i.val j.val with h | h
  · exact hkey i.val j.val h hfij
  · have : j.val < i.val := by
      rcases Nat.lt_or_ge j.val i.val with h2 | h2
      · exact h2
      · exact absurd (Fin.ext (by omega)) hij
    exact hkey j.val i.val this hfij.symm

theorem acyclic_iff_no_cycle (tasks : List Task) (hids : (taskIds tasks).Nodup)
    (hdeps : ∀ t ∈ tasks, t.dependencies.Nodup) :
    Acyclic tasks ↔ ¬ HasCycle tasks := by
  constructor
  · rintro ⟨rank, hrank⟩ ⟨x, l, hch⟩
    have hmono : ∀ p c, Edge tasks p c → rank p < rank c := by
      rintro p c ⟨t, ht, rfl, hp⟩
      exact hrank t ht p hp
    have hx : x ∈ l ++ [x] := List.mem_append_right _ (List.mem_singleton_self x)
    have := chain_measure_lt hmono (l ++ [x]) x hch x hx
    omega
  · intro hnc
    have hlen := no_cycle_complete tasks hids hdeps hnc
    have H := inv_kahnFinal tasks hids hdeps
    refine ⟨fun x => idxOf (kahnFinal tasks).topo x, ?_⟩
    intro t ht d hd
    have hct : t.id ∈ (kahnFinal tasks).topo :=
      complete_mem tasks hids H hlen t.id (mem_taskIds.mpr ⟨t, ht, rfl⟩)
    exact (H.topo_edge t ht hct d hd).2

/-! ## Pinning down predecessors on simple graphs -/

theorem traceBack_succ_some (P : String → Option String) (fuel : Nat)
    (x p : String) (h : P x = some p) :
    traceBack P (fuel + 1) x = traceBack P fuel p ++ [x] := by
  simp [traceBack, h]

theorem traceBack_succ_none (P : String → Option String) (fuel : Nat)
    (x : String) (h : P x = none) :
    traceBack P (fuel + 1) x = [x] := by
  simp [traceBack, h]

theorem maxByFirst_eq (f : String → Int) {xs : List String} {m : String}
    (hall : ∀ y ∈ xs, y = m ∨ f y < f m) (hm : m ∈ xs) :
    maxByFirst f xs = m := by
  cases xs with
  | nil => cases hm
  | cons a xs =>
    simp only [maxByFirst]
    have hall' : ∀ y ∈ xs, y = m ∨ f y < f m :=
      fun y hy => hall y (List.mem_cons_of_mem _ hy)
    refine maxByFirst_eq_of_unique f xs a hall' ?_
    rcases hall a (List.mem_cons_self _ _) with he | hlt
    · exact Or.inl he
    · refine Or.inr ⟨hlt, ?_⟩
      rcases List.mem_cons.mp hm with he | hx
      · rw [he] at hlt
        omega
      · exact hx

theorem taskOf_id_inj {tasks : List Task} (hids : (taskIds tasks).Nodup)
    {u t : Task} (hu : u ∈ tasks) (ht : t ∈ tasks) (h : u.id = t.id) : u = t := by
  have h1 := taskOf_self hids hu
  rw [h] at h1
  have h2 := taskOf_self hids ht
  rw [h1] at h2
  cases h2
  rfl

/-- A task with no restricted dependencies never receives a predecessor. -/
theorem pred_of_no_deps (tasks : List Task) (hids : (taskIds tasks).Nodup)
    (hdeps : ∀ t ∈ tasks, t.dependencies.Nodup)
    {t : Task} (ht : t ∈ tasks) (hrd : restrictedDeps tasks t = []) :
    (kahnFinal tasks).pred t.id = none := by
  have H := inv_kahnFinal tasks hids hdeps
  cases hp : (kahnFinal tasks).pred t.id with
  | none => rfl
  | some q =>
    exfalso
    obtain ⟨_, ⟨u, hu, huid, hqrd⟩, _, _⟩ := H.pred_spec t.id q hp
    have hut : u = t := taskOf_id_inj hids hu ht huid
    rw [hut, hrd] at hqrd
    cases hqrd

/-- A task with exactly one restricted dependency, already processed,
gets exactly that dependency as its predecessor (positive weights). -/
theorem pred_unique (tasks : List Task) (hids : (taskIds tasks).Nodup)
    (hdeps : ∀ t ∈ tasks, t.dependencies.Nodup)
    (hw : ∀ t ∈ tasks, 0 < t.story_points)
    {t : Task} (ht : t ∈ tasks) {d : String}
    (hrd : restrictedDeps tasks t = [d])
    (hdt : d ∈ (kahnFinal tasks).topo) :
    (kahnFinal tasks).pred t.id = some d := by
  have H := inv_kahnFinal tasks hids hdeps
  have HP := predSome_kahnFinal tasks hids hdeps hw
  have hsome := HP t ht ⟨d, by rw [hrd]; exact List.mem_singleton_self _, hdt⟩
  cases hp : (kahnFinal tasks).pred t.id with
  | none => rw [hp] at hsome; cases hsome
  | some q =>
    obtain ⟨_, ⟨u, hu, huid, hqrd⟩, _, _⟩ := H.pred_spec t.id q hp
    have hut : u = t := taskOf_id_inj hids hu ht huid
    rw [hut, hrd] at hqrd
    have : q = d := by simpa using hqrd
    rw [this]

/-- C6: for every linear three-task chain (`a` with no dependencies, `b`
depending on `a`, `c` depending on `b`), presented to the engine in any
order and with any positive story-point weights, `get_critical_path`
returns exactly `[a, b, c]`. -/
theorem c6_linear_chain (tasks : List Task) (a b c : Task)
    (hperm : tasks.Perm [a, b, c])
    (hids : (taskIds tasks).Nodup)
    (hda : a.dependencies = [])
    (hdb : b.dependencies = [a.id])
    (hdc : c.dependencies = [b.id])
    (hw : ∀ t ∈ tasks, 0 < t.story_points) :
    criticalPath tasks = [a, b, c] := by
  have ha : a ∈ tasks := hperm.mem_iff.mpr (by simp)
  have hb : b ∈ tasks := hperm.mem_iff.mpr (by simp)
  have hc : c ∈ tasks := hperm.mem_iff.mpr (by simp)
  have hlen3 : tasks.length = 3 := by
    have := hperm.length_eq
    simpa using this
  have hne : tasks ≠ [] := by
    intro h
    rw [h] at hlen3
    cases hlen3
  have hidsP : ([a.id, b.id, c.id] : List String).Nodup := by
    have hmp : (taskIds tasks).Perm [a.id, b.id, c.id] := by
      simpa [taskIds] using hperm.map Task.id
    exact hmp.nodup_iff.mp hids
  have hab : a.id ≠ b.id := by
    intro h
    simp [h] at hidsP
  have hacid : a.id ≠ c.id := by
    intro h
    simp [h] at hidsP
  have hbc : b.id ≠ c.id := by
    intro h
    simp [h] at hidsP
  have hmem3 : ∀ t ∈ tasks, t = a ∨ t = b ∨ t = c := by
    intro t ht
    have := hperm.mem_iff.mp ht
    simpa using this
  have hdeps : ∀ t ∈ tasks, t.dependencies.Nodup := by
    intro t ht
    rcases hmem3 t ht with rfl | rfl | rfl <;> simp [hda, hdb, hdc]
  have haid : a.id ∈ taskIds tasks := mem_taskIds.mpr ⟨a, ha, rfl⟩
  have hbid : b.id ∈ taskIds tasks := mem_taskIds.mpr ⟨b, hb, rfl⟩
  have hcid : c.id ∈ taskIds tasks := mem_taskIds.mpr ⟨c, hc, rfl⟩
  have rda : restrictedDeps tasks a = [] := by simp [restrictedDeps, hda]
  have rdb : restrictedDeps tasks b = [a.id] := by
    simp [restrictedDeps, hdb, haid]
  have rdc : restrictedDeps tasks c = [b.id] := by
    simp [restrictedDeps, hdc, hbid]
  have hacy : Acyclic tasks := by
    refine ⟨fun x => if x = b.id then 1 else if x = c.id then 2 else 0, ?_⟩
    intro t ht d hd
    rcases hmem3 t ht with rfl | rfl | rfl
    · rw [rda] at hd
      cases hd
    · rw [rdb] at hd
      have hd' : d = a.id := by simpa using hd
      rw [hd']
      simp [hab, hacid]
    · rw [rdc] at hd
      have hd' : d = b.id := by simpa using hd
      rw [hd']
      simp [Ne.symm hbc]
  have hlen := acyclic_complete tasks hids hdeps hacy
  have H := inv_kahnFinal tasks hids hdeps
  have hcompl := complete_mem tasks hids H hlen
  have hpa : (kahnFinal tasks).pred a.id = none :=
    pred_of_no_deps tasks hids hdeps ha rda
  have hpb : (kahnFinal tasks).pred b.id = some a.id :=
    pred_unique tasks hids hdeps hw hb rdb (hcompl a.id haid)
  have hpc : (kahnFinal tasks).pred c.id = some b.id :=
    pred_unique tasks hids hdeps hw hc rdc (hcompl b.id hbid)
  have hwa : wOf tasks a.id = a.story_points := wOf_eq hids ha
  have hwb : wOf tasks b.id = b.story_points := wOf_eq hids hb
  have hwc : wOf tasks c.id = c.story_points := wOf_eq hids hc
  have hea : (kahnFinal tasks).earliest a.id = 0 := H.pred_none_earliest _ hpa
  have heb : (kahnFinal tasks).earliest b.id = a.story_points := by
    have := (H.pred_spec b.id a.id hpb).2.2.1
    rw [this, hea, hwa]
    omega
  have hec : (kahnFinal tasks).earliest c.id =
      a.story_points + b.story_points := by
    have := (H.pred_spec c.id b.id hpc).2.2.1
    rw [this, heb, hwb]
  have hwap := hw a ha
  have hwbp := hw b hb
  have hwcp := hw c hc
  have hend : endIdOf tasks = c.id := by
    rw [endIdOf]
    refine maxByFirst_eq _ ?_ (hcompl c.id hcid)
    intro y hy
    obtain ⟨t, ht, htid⟩ := mem_taskIds.mp (topo_sub_ids tasks H y hy)
    rcases hmem3 t ht with rfl | rfl | rfl
    · right
      rw [← htid, hea, hwa, hec, hwc]
      omega
    · right
      rw [← htid, heb, hwb, hec, hwc]
      omega
    · left
      exact htid.symm
  have hpath : pathIds tasks = [a.id, b.id, c.id] := by
    rw [pathIds, hlen3, hend]
    rw [show (3 : Nat) = 2 + 1 from rfl,
      traceBack_succ_some _ _ _ _ hpc]
    rw [show (2 : Nat) = 1 + 1 from rfl,
      traceBack_succ_some _ _ _ _ hpb]
    rw [show (1 : Nat) = 0 + 1 from rfl,
      traceBack_succ_none _ _ _ hpa]
    rfl
  rw [criticalPath_eq_traceBack hne hlen, hpath]
  simp [List.filterMap_cons, taskOf_self hids ha, taskOf_self hids hb,
    taskOf_self hids hc]

/-- A concrete linear chain, listed out of execution order. -/
def c6demo : List Task :=
  [{ id := "c", project_id := "p", title := "C", assignee := "x",
     priority := 1, story_points := 1, dependencies := ["b"] },
   { id := "a", project_id := "p", title := "A", assignee := "x",
     priority := 3, story_points := 2 },
   { id := "b", project_id := "p", title := "B", assignee := "x",
     priority := 2, story_points := 5, dependencies := ["a"] }]

theorem c6_witness :
    criticalPath c6demo =
      [{ id := "a", project_id := "p", title := "A", assignee := "x",
         priority := 3, story_points := 2 },
       { id := "b", project_id := "p", title := "B", assignee := "x",
         priority := 2, story_points := 5, dependencies := ["a"] },
       { id := "c", project_id := "p", title := "C", assignee := "x",
         priority := 1, story_points := 1, dependencies := ["b"] }] :=
  c6_linear_chain c6demo _ _ _ (by decide) (by decide) (by decide) (by decide)
    (by decide) (by decide)

/-! ## C4: ordering of `get_project_tasks` -/

/-- Attaching the resolved dependency list leaves the sort key alone. -/
theorem rowLe_row_to_task (s : Store) {a b : Task} (h : rowLe a b) :
    rowLe (row_to_task s a) (row_to_task s b) := h

/-- Two rows with the same priority, the row carrying a due date inserted
first, the row without one inserted second. -/
def c4store : Store :=
  add_task
    (add_task {}
      { id := "t1", project_id := "p", title := "with due", assignee := "x",
        priority := 2, due_date := some 10 })
    { id := "t2", project_id := "p", title := "no due", assignee := "x",
      priority := 2, due_date := none }

/-- C4 counterexample: the claim says rows with an absent due date sort
last within their priority group, but SQLite sorts `NULL` first in
ascending order: the due-date-free row comes out first. -/
theorem c4_counterexample :
    (get_project_tasks c4store "p").map (fun t => (t.priority, t.due_date)) =
      [(2, none), (2, some 10)] := by decide

/-- C4 amended: `get_project_tasks` returns a permutation of the rows of
the project, sorted by priority ascending then due date ascending with
absent due dates placed FIRST within their priority group (SQLite
NULLS FIRST), each row carrying its resolved dependency list. -/
theorem c4_order_nulls_first (s : Store) (pid : String) :
    (get_project_tasks s pid).Sorted rowLe ∧
    (get_project_tasks s pid).Perm
      ((s.tasks.filter (fun t => t.project_id == pid)).map (row_to_task s)) := by
  constructor
  · have hs := List.sorted_insertionSort rowLe
      (s.tasks.filter (fun t => t.project_id == pid))
    exact List.Pairwise.map _ (fun a b h => rowLe_row_to_task s h) hs
  · exact (List.perm_insertionSort rowLe _).map _

/-! ## C5: the completed-at invariant -/

theorem doneInv_add {s : Store} {t : Task} (h : DoneInv s)
    (ht : t.completed_at.isSome ↔ t.status = "done") :
    DoneInv (add_task s t) := by
  intro u hu
  rcases List.mem_append.mp hu with h1 | h1
  · exact h u h1
  · have : u = t := by simpa using h1
    rw [this]
    exact ht

theorem doneInv_update {s : Store} (tid status : String) (now : Int)
    (h : DoneInv s) :
    DoneInv (update_task_status s tid status now).1 := by
  intro u hu
  simp only [update_task_status] at hu
  obtain ⟨v, hv, hvu⟩ := List.mem_map.mp hu
  by_cases hid : v.id = tid
  · rw [if_pos hid] at hvu
    rw [← hvu]
    by_cases hst : status = "done" <;> simp [hst]
  · rw [if_neg hid] at hvu
    rw [← hvu]
    exact h v hv

/-- A stored row violating the invariant, inserted verbatim. -/
def c5bad : Task :=
  { id := "t", project_id := "p", title := "bad", assignee := "x",
    priority := 1, status := "todo", completed_at := some 5 }

/-- C5 counterexample: `add_task` stores the given record unchanged, so
adding a task whose `completed_at` is set while its status is `todo`
breaks the claimed store-wide invariant — the claim does not hold after
every operation sequence. -/
theorem c5_counterexample : ¬ DoneInv (applyOp {} (Op.add c5bad)) := by decide

/-- C5 amended: the invariant (completed_at non-null iff status is done)
holds after every sequence of `add_task` / `update_task_status`
operations provided every added task itself satisfies it (the store does
not validate inserts — spec section 7 leaves malformed input to the
caller); `update_task_status(id, "done")` stamps the current time on
every matching row and any other status clears the timestamp. -/
theorem c5_done_invariant (s0 : Store) (ops : List Op) (h0 : DoneInv s0)
    (hadd : ∀ op ∈ ops, ∀ t : Task, op = Op.add t →
      (t.completed_at.isSome ↔ t.status = "done")) :
    DoneInv (ops.foldl applyOp s0) ∧
    (∀ (s : Store) (tid : String) (now : Int),
      ∀ t ∈ (update_task_status s tid "done" now).1.tasks,
        t.id = tid → t.completed_at = some now) ∧
    (∀ (s : Store) (tid status : String) (now : Int), status ≠ "done" →
      ∀ t ∈ (update_task_status s tid status now).1.tasks,
        t.id = tid → t.completed_at = none) := by
  refine ⟨?_, ?_, ?_⟩
  · induction ops generalizing s0 with
    | nil => exact h0
    | cons op ops ih =>
      rw [List.foldl_cons]
      refine ih (applyOp s0 op) ?_
        (fun o ho t het => hadd o (List.mem_cons_of_mem _ ho) t het)
      cases op with
      | add t =>
        exact doneInv_add h0 (hadd _ (List.mem_cons_self _ _) t rfl)
      | updStatus tid status now =>
        exact doneInv_update tid status now h0
  · intro s tid now t ht htid
    simp only [update_task_status] at ht
    obtain ⟨v, _, hvu⟩ := List.mem_map.mp ht
    by_cases hid : v.id = tid
    · rw [if_pos hid] at hvu
      rw [← hvu]
      simp
    · rw [if_neg hid] at hvu
      rw [← hvu] at htid
      exact absurd htid hid
  · intro s tid status now hst t ht htid
    simp only [update_task_status] at ht
    obtain ⟨v, _, hvu⟩ := List.mem_map.mp ht
    by_cases hid : v.id = tid
    · rw [if_pos hid] at hvu
      rw [← hvu]
      simp [hst]
    · rw [if_neg hid] at hvu
      rw [← hvu] at htid
      exact absurd htid hid

/-- A well-formed task for the C5 witness sequence. -/
def c5good : Task :=
  { id := "t", project_id := "p", title := "good", assignee := "x",
    priority := 1 }

theorem c5_witness :
    DoneInv ([Op.add c5good, Op.updStatus "t" "done" 7].foldl applyOp {}) ∧
    (∀ (s : Store) (tid : String) (now : Int),
      ∀ t ∈ (update_task_status s tid "done" now).1.tasks,
        t.id = tid → t.completed_at = some now) ∧
    (∀ (s : Store) (tid status : String) (now : Int), status ≠ "done" →
      ∀ t ∈ (update_task_status s tid status now).1.tasks,
        t.id = tid → t.completed_at = none) :=
  c5_done_invariant {} [Op.add c5good, Op.updStatus "t" "done" 7]
    (by decide)
    (by
      intro op hop t het
      rcases List.mem_cons.mp hop with h | h
      · rw [h] at het
        injection het with h3
        rw [← h3]
        decide
      · have h2 : op = Op.updStatus "t" "done" 7 := by simpa using h
        rw [h2] at het
        simp at het)

/-! ## C7 and C10: burndown -/

theorem round2_intCast (n : Int) : round2 ((n : ℚ)) = (n : ℚ) := by
  have hfl : ⌊(n : ℚ) * 100 + 1/2⌋ = n * 100 := by
    rw [Int.floor_eq_iff]
    constructor
    · push_cast
      linarith
    · push_cast
      linarith
  rw [round2, hfl]
  push_cast
  field_simp

theorem burnFold_length (tasks : List Task) (start total : Int) (ipd : ℚ) :
    ∀ (days : List Nat) (acc : Int × List ChartPoint),
      ((days.foldl (burnStep tasks start total ipd) acc).2).length =
        acc.2.length + days.length := by
  intro days
  induction days with
  | nil => intro acc; simp
  | cons i days ih =>
    intro acc
    rw [List.foldl_cons, ih]
    simp [burnStep]
    omega

theorem burnFold_days (tasks : List Task) (start total : Int) (ipd : ℚ) :
    ∀ (days : List Nat) (acc : Int × List ChartPoint),
      ((days.foldl (burnStep tasks start total ipd) acc).2).map ChartPoint.day =
        acc.2.map ChartPoint.day ++ days := by
  intro days
  induction days with
  | nil => intro acc; simp
  | cons i days ih =>
    intro acc
    rw [List.foldl_cons, ih]
    simp [burnStep]

theorem burnFold_no_completions (tasks : List Task) (start total : Int) (ipd : ℚ)
    (h0 : ∀ d : Int, completedOn tasks start d = 0) :
    ∀ (days : List Nat) (r : Int) (l : List ChartPoint),
      days.foldl (burnStep tasks start total ipd) (r, l) =
        (r, l ++ days.map (fun i =>
          { day := i, date := start + (i : Int)
            ideal := round2 ((total : ℚ) - ipd * (i : ℚ)), actual := r })) := by
  intro days
  induction days with
  | nil => intro r l; simp
  | cons i days ih =>
    intro r l
    rw [List.foldl_cons]
    have hstep : burnStep tasks start total ipd (r, l) i =
        (r, l ++ [{ day := i, date := start + (i : Int),
                    ideal := round2 ((total : ℚ) - ipd * (i : ℚ)),
                    actual := r }]) := by
      simp [burnStep, h0]
    rw [hstep, ih]
    simp

/-- Three stored two-point tasks for the concrete burndown scenario. -/
def c7store : Store :=
  add_task (add_task (add_task {}
    { id := "t0", project_id := "p", title := "T0", assignee := "d",
      priority := 3, story_points := 2 })
    { id := "t1", project_id := "p", title := "T1", assignee := "d",
      priority := 3, story_points := 2 })
    { id := "t2", project_id := "p", title := "T2", assignee := "d",
      priority := 3, story_points := 2 }

/-- The materialized rows of `c7store`. -/
def c7rows : List Task :=
  [{ id := "t0", project_id := "p", title := "T0", assignee := "d",
     priority := 3, story_points := 2 },
   { id := "t1", project_id := "p", title := "T1", assignee := "d",
     priority := 3, story_points := 2 },
   { id := "t2", project_id := "p", title := "T2", assignee := "d",
     priority := 3, story_points := 2 }]

/-- C7: a project with zero total story points yields an empty chart;
otherwise (for a positive sprint length — `sprint_days = 0` raises
instead, claim C10) the chart has `sprint_days + 1` points, and on the
concrete scenario of three two-point tasks over a five-day sprint it has
exactly 6 points with ideal 6.0 on day 0 and ideal 0.0 on day 5. -/
theorem c7_burndown_shape (s : Store) (pid : String) (d today : Int) :
    (((get_project_tasks s pid).map Task.story_points).sum = 0 →
      calculate_burndown s pid d today = .ok []) ∧
    (((get_project_tasks s pid).map Task.story_points).sum ≠ 0 → 0 < d →
      ∃ pts, calculate_burndown s pid d today = .ok pts ∧
        pts.length = d.toNat + 1 ∧
        pts.map ChartPoint.day = List.range (d.toNat + 1)) ∧
    (∃ pts, calculate_burndown c7store "p" 5 0 = .ok pts ∧
      pts.length = 6 ∧
      pts.head?.map ChartPoint.ideal = some 6 ∧
      pts.getLast?.map ChartPoint.ideal = some 0) := by
  refine ⟨?_, ?_, ?_⟩
  · intro h0
    simp only [calculate_burndown]
    rw [if_pos h0]
  · intro hne hd
    simp only [calculate_burndown]
    rw [if_neg hne, if_neg (by omega)]
    refine ⟨_, rfl, ?_, ?_⟩
    · rw [burnFold_length]
      simp only [List.length_nil, List.length_range]
      omega
    · rw [burnFold_days]
      simp only [List.map_nil, List.nil_append]
      congr 1
      omega
  · have hrows : get_project_tasks c7store "p" = c7rows := by decide
    have hzero : ∀ dy : Int, completedOn c7rows ((0 : Int) - 5) dy = 0 :=
      fun dy => rfl
    have hsum : (c7rows.map Task.story_points).sum = 6 := by decide
    refine ⟨(List.range 6).map (fun i =>
      { day := i, date := (0 : Int) - 5 + (i : Int)
        ideal := round2 (((6 : Int) : ℚ) - ((6 : Int) : ℚ) / ((5 : Int) : ℚ) * (i : ℚ))
        actual := 6 }), ?_, by simp, ?_, ?_⟩
    · simp only [calculate_burndown, hrows, hsum]
      rw [if_neg (by omega), if_neg (by omega)]
      rw [show ((5 : Int) + 1).toNat = 6 from rfl]
      rw [burnFold_no_completions c7rows ((0 : Int) - 5) 6
        (((6 : Int) : ℚ) / ((5 : Int) : ℚ)) hzero (List.range 6) 6 []]
      simp
    · rw [show List.range 6 = [0, 1, 2, 3, 4, 5] from rfl]
      simp only [List.map_cons, List.head?_cons, Option.map_some]
      have : (((6 : Int) : ℚ) - ((6 : Int) : ℚ) / ((5 : Int) : ℚ) * ((0 : Nat) : ℚ)) =
          ((6 : Int) : ℚ) := by push_cast; ring
      rw [this, round2_intCast 6]
      norm_num
    · rw [show List.range 6 = [0, 1, 2, 3, 4, 5] from rfl]
      simp only [List.map_cons, List.map_nil]
      rw [show ∀ (a b c d e f : ChartPoint),
        ([a, b, c, d, e, f] : List ChartPoint).getLast? = some f from fun _ _ _ _ _ _ => rfl]
      simp only [Option.map_some']
      have : (((6 : Int) : ℚ) - ((6 : Int) : ℚ) / ((5 : Int) : ℚ) * ((5 : Nat) : ℚ)) =
          ((0 : Int) : ℚ) := by push_cast; ring
      rw [this, round2_intCast 0]
      norm_num

theorem c7_witness :
    ((((get_project_tasks c7store "q").map Task.story_points).sum = 0 →
      calculate_burndown c7store "q" 5 0 = .ok []) ∧
    ((((get_project_tasks c7store "q").map Task.story_points).sum ≠ 0 → 0 < (5 : Int) →
      ∃ pts, calculate_burndown c7store "q" 5 0 = .ok pts ∧
        pts.length = (5 : Int).toNat + 1 ∧
        pts.map ChartPoint.day = List.range ((5 : Int).toNat + 1))) ∧
    (∃ pts, calculate_burndown c7store "p" 5 0 = .ok pts ∧
      pts.length = 6 ∧
      pts.head?.map ChartPoint.ideal = some 6 ∧
      pts.getLast?.map ChartPoint.ideal = some 0)) ∧
    calculate_burndown c7store "q" 5 0 = .ok [] :=
  ⟨c7_burndown_shape c7store "q" 5 0,
    (c7_burndown_shape c7store "q" 5 0).1 (by decide)⟩

/-- One positive-weight task, for the division-by-zero scenario. -/
def c10store : Store :=
  add_task {}
    { id := "t0", project_id := "p", title := "T0", assignee := "d",
      priority := 3, story_points := 2 }

/-- C10: with anything to chart, `calculate_burndown` with
`sprint_days = 0` hits the unguarded `total_points / sprint_days` and
raises `ZeroDivisionError` — the operation is not total over all sprint
lengths. -/
theorem c10_burndown_div_zero (s : Store) (pid : String) (today : Int)
    (hpos : ∃ t ∈ get_project_tasks s pid, 0 < t.story_points)
    (hnn : ∀ t ∈ get_project_tasks s pid, 0 ≤ t.story_points) :
    calculate_burndown s pid 0 today = .error "ZeroDivisionError" := by
  obtain ⟨t, ht, htp⟩ := hpos
  have hmem : t.story_points ∈ (get_project_tasks s pid).map Task.story_points :=
    List.mem_map_of_mem _ ht
  have hall : ∀ x ∈ (get_project_tasks s pid).map Task.story_points, 0 ≤ x := by
    intro x hx
    obtain ⟨u, hu, hxu⟩ := List.mem_map.mp hx
    exact hxu ▸ hnn u hu
  have hle := List.single_le_sum hall _ hmem
  simp only [calculate_burndown]
  rw [if_neg (by omega)]
  simp

theorem c10_witness :
    calculate_burndown c10store "p" 0 0 = .error "ZeroDivisionError" :=
  c10_burndown_div_zero c10store "p" 0
    ⟨{ id := "t0", project_id := "p", title := "T0", assignee := "d",
       priority := 3, story_points := 2 }, by decide, by decide⟩
    (by decide)

/-! ## C8: deadline alerts -/

instance : IsTotal Alert (fun a b => a.days_remaining ≤ b.days_remaining) :=
  ⟨fun _ _ => le_total _ _⟩

instance : IsTrans Alert (fun a b => a.days_remaining ≤ b.days_remaining) :=
  ⟨fun _ _ _ => le_trans⟩

/-- The project-side alert record built on lines 381-389. -/
def projAlert (today : Int) (p : Project) : Alert :=
  { kind := "project", id := p.id, label := p.name, who := p.owner,
    date := p.deadline, days_remaining := p.deadline - today,
    urgency := urgencyOf (p.deadline - today) }

/-- The task-side alert record built on lines 400-408. -/
def taskAlert (today : Int) (t : Task) : Alert :=
  { kind := "task", id := t.id, label := t.title, who := t.assignee,
    date := t.due_date.getD 0, days_remaining := t.due_date.getD 0 - today,
    urgency := urgencyOf (t.due_date.getD 0 - today) }

theorem check_deadlines_perm (s : Store) (d today : Int) :
    (check_deadlines s d today).Perm
      ((((list_projects s (some "active")).filter
          (fun p => decide (p.deadline - today ≤ d))).map (projAlert today)) ++
        ((s.tasks.filter (fun t =>
            !(t.status == "done") && !(t.status == "blocked") &&
              match t.due_date with
              | some due => decide (due ≤ today + d)
              | none => false)).map (taskAlert today))) := by
  exact List.perm_insertionSort _ _

/-- C8: `check_deadlines` emits one alert for every active project whose
deadline is at most `days_ahead` days away (overdue included), one alert
for every non-done, non-blocked task due on or before the horizon, and
nothing else; urgency is classified by the sign of the days remaining,
and the combined list is sorted ascending by days remaining. -/
theorem c8_check_deadlines (s : Store) (d today : Int) :
    (∀ p ∈ s.projects, p.status = "active" → p.deadline - today ≤ d →
      ∃ a ∈ check_deadlines s d today, a.kind = "project" ∧ a.id = p.id ∧
        a.days_remaining = p.deadline - today) ∧
    (∀ t ∈ s.tasks, t.status ≠ "done" → t.status ≠ "blocked" →
      ∀ due : Int, t.due_date = some due → due ≤ today + d →
      ∃ a ∈ check_deadlines s d today, a.kind = "task" ∧ a.id = t.id ∧
        a.days_remaining = due - today) ∧
    (∀ a ∈ check_deadlines s d today,
      a.urgency = (if a.days_remaining < 0 then "overdue"
        else if a.days_remaining = 0 then "today" else "upcoming")) ∧
    (∀ a ∈ check_deadlines s d today,
      (a.kind = "project" ∧ ∃ p ∈ s.projects, p.status = "active" ∧
        p.deadline - today ≤ d ∧ a.id = p.id ∧
        a.days_remaining = p.deadline - today) ∨
      (a.kind = "task" ∧ ∃ t ∈ s.tasks, t.status ≠ "done" ∧
        t.status ≠ "blocked" ∧ ∃ due : Int, t.due_date = some due ∧
        due ≤ today + d ∧ a.id = t.id ∧ a.days_remaining = due - today)) ∧
    (check_deadlines s d today).Sorted
      (fun a b => a.days_remaining ≤ b.days_remaining) := by
  have hperm := check_deadlines_perm s d today
  refine ⟨?_, ?_, ?_, ?_, ?_⟩
  · intro p hp hact hdl
    refine ⟨projAlert today p, ?_, rfl, rfl, rfl⟩
    rw [hperm.mem_iff]
    refine List.mem_append_left _ (List.mem_map.mpr ⟨p, ?_, rfl⟩)
    refine List.mem_filter.mpr ⟨?_, by simp [hdl]⟩
    rw [list_projects]
    rw [(List.perm_insertionSort _ _).mem_iff]
    exact List.mem_filter.mpr ⟨hp, by simp [hact]⟩
  · intro t ht hnd hnb due hdue hh
    refine ⟨taskAlert today t, ?_, rfl, rfl, by simp [taskAlert, hdue]⟩
    rw [hperm.mem_iff]
    refine List.mem_append_right _ (List.mem_map.mpr ⟨t, ?_, rfl⟩)
    refine List.mem_filter.mpr ⟨ht, ?_⟩
    rw [hdue]
    simp [hnd, hnb, hh]
  · intro a ha
    rw [hperm.mem_iff] at ha
    rcases List.mem_append.mp ha with h | h
    · obtain ⟨p, _, rfl⟩ := List.mem_map.mp h
      simp [projAlert, urgencyOf]
    · obtain ⟨t, _, rfl⟩ := List.mem_map.mp h
      simp [taskAlert, urgencyOf]
  · intro a ha
    rw [hperm.mem_iff] at ha
    rcases List.mem_append.mp ha with h | h
    · left
      obtain ⟨p, hpf, rfl⟩ := List.mem_map.mp h
      obtain ⟨hpl, hdl⟩ := List.mem_filter.mp hpf
      rw [list_projects, (List.perm_insertionSort _ _).mem_iff] at hpl
      obtain ⟨hps, hact⟩ := List.mem_filter.mp hpl
      refine ⟨rfl, p, hps, by simpa using hact, by simpa using hdl, rfl, rfl⟩
    · right
      obtain ⟨t, htf, rfl⟩ := List.mem_map.mp h
      obtain ⟨hts, hcond⟩ := List.mem_filter.mp htf
      cases hdue : t.due_date with
      | none => rw [hdue] at hcond; simp at hcond
      | some due =>
        rw [hdue] at hcond
        simp at hcond
        obtain ⟨⟨hnd, hnb⟩, hh⟩ := hcond
        exact ⟨rfl, t, hts, hnd, hnb, due, hdue, hh,
          by simp [taskAlert, hdue], by simp [taskAlert, hdue]⟩
  · exact List.sorted_insertionSort _ _

/-- One urgent active project, one far-off project, one due task. -/
def c8store : Store :=
  { projects :=
      [{ id := "p1", name := "Urgent", owner := "ed", deadline := 2 },
       { id := "p2", name := "Far", owner := "ed", deadline := 60 }],
    tasks :=
      [{ id := "t1", project_id := "p1", title := "Due", assignee := "a",
         priority := 1, due_date := some 3 }],
    deps := [] }

theorem c8_witness :
    ((∀ p ∈ c8store.projects, p.status = "active" → p.deadline - 0 ≤ 7 →
      ∃ a ∈ check_deadlines c8store 7 0, a.kind = "project" ∧ a.id = p.id ∧
        a.days_remaining = p.deadline - 0) ∧
    (∀ t ∈ c8store.tasks, t.status ≠ "done" → t.status ≠ "blocked" →
      ∀ due : Int, t.due_date = some due → due ≤ 0 + 7 →
      ∃ a ∈ check_deadlines c8store 7 0, a.kind = "task" ∧ a.id = t.id ∧
        a.days_remaining = due - 0) ∧
    (∀ a ∈ check_deadlines c8store 7 0,
      a.urgency = (if a.days_remaining < 0 then "overdue"
        else if a.days_remaining = 0 then "today" else "upcoming")) ∧
    (∀ a ∈ check_deadlines c8store 7 0,
      (a.kind = "project" ∧ ∃ p ∈ c8store.projects, p.status = "active" ∧
        p.deadline - 0 ≤ 7 ∧ a.id = p.id ∧
        a.days_remaining = p.deadline - 0) ∨
      (a.kind = "task" ∧ ∃ t ∈ c8store.tasks, t.status ≠ "done" ∧
        t.status ≠ "blocked" ∧ ∃ due : Int, t.due_date = some due ∧
        due ≤ 0 + 7 ∧ a.id = t.id ∧ a.days_remaining = due - 0)) ∧
    (check_deadlines c8store 7 0).Sorted
      (fun a b => a.days_remaining ≤ b.days_remaining)) ∧
    (∃ a ∈ check_deadlines c8store 7 0, a.kind = "project" ∧ a.id = "p1" ∧
      a.days_remaining = 2 - 0) :=
  ⟨c8_check_deadlines c8store 7 0,
    (c8_check_deadlines c8store 7 0).1
      { id := "p1", name := "Urgent", owner := "ed", deadline := 2 }
      (by decide) (by decide) (by decide)⟩

/-! ## C9: not-found behaviour of Gantt export vs read accessors -/

/-- C9: `export_gantt_csv` fails with a not-found error exactly when the
project id does not resolve, while the read accessors `get_project` and
`get_task` return the absent sentinel (`none`) for unknown ids. -/
theorem c9_gantt_not_found (s : Store) (pid : String) :
    ((∃ e, export_gantt_csv s pid = .error e) ↔ get_project s pid = none) ∧
    ((∀ p ∈ s.projects, p.id ≠ pid) → get_project s pid = none) ∧
    (∀ tid : String, (∀ t ∈ s.tasks, t.id ≠ tid) → get_task s tid = none) := by
  refine ⟨?_, ?_, ?_⟩
  · constructor
    · rintro ⟨e, he⟩
      cases hp : get_project s pid with
      | none => rfl
      | some p =>
        rw [export_gantt_csv, hp] at he
        cases he
    · intro hp
      rw [export_gantt_csv, hp]
      exact ⟨_, rfl⟩
  · intro hall
    rw [get_project, List.find?_eq_none]
    intro p hp
    simp only [beq_iff_eq]
    exact hall p hp
  · intro tid hall
    rw [get_task]
    have : s.tasks.find? (fun t => t.id == tid) = none := by
      rw [List.find?_eq_none]
      intro t ht
      simp only [beq_iff_eq]
      exact hall t ht
    rw [this]
    rfl

/-- A one-project store for exercising the not-found paths. -/
def c9store : Store :=
  { projects := [{ id := "p1", name := "Alpha", owner := "al", deadline := 30 }],
    tasks := [{ id := "t1", project_id := "p1", title := "T", assignee := "a",
                priority := 1 }],
    deps := [] }

theorem c9_witness :
    (((∃ e, export_gantt_csv c9store "missing" = .error e) ↔
      get_project c9store "missing" = none) ∧
    ((∀ p ∈ c9store.projects, p.id ≠ "missing") →
      get_project c9store "missing" = none) ∧
    (∀ tid : String, (∀ t ∈ c9store.tasks, t.id ≠ tid) →
      get_task c9store tid = none)) ∧
    get_project c9store "missing" = none ∧
    get_task c9store "ghost" = none :=
  ⟨c9_gantt_not_found c9store "missing",
    (c9_gantt_not_found c9store "missing").2.1 (by decide),
    (c9_gantt_not_found c9store "missing").2.2 "ghost" (by decide)⟩

end PM
